import Mathlib

/-!
Verification of the sigma-hierarchy-filter-plugin hierarchy engine.

The repository contains three variants of the same React component:
* variant 1: `src/HPOPlugin.tsx` lines 1-595 (chunked fetch, flat maps),
* variant 2: `src/HPOPlugin.tsx` lines 595-1130 (single CSV fetch, flat maps),
* variant 3: the unnamed file `part_003` (nested children tree).

The definitions below are shallow embeddings of those functions.  JavaScript
`Set` objects are modelled as insertion-ordered duplicate-free lists, JS `Map`
lookups as list searches, and the `while` loops of the source as fuel-indexed
recursions returning `Option` (`none` models a loop that has not finished
within the given fuel, i.e. divergence when it holds for every fuel).
-/

namespace HPO

/-- A raw CSV row as delivered by the parser: string values, `""` standing for
a missing/empty field (both are falsy in JS). -/
structure CSVRow where
  TERM_ID : String
  TERM_FULL_NAME : String
  PARENT_ID : String
  LEVEL : String
deriving Repr, DecidableEq

/-- The `HPONode` interface of variants 1 and 2.  `level` is an `Option Int`:
`none` models the JS `NaN` produced by a failed `parseInt`. -/
structure HPONode where
  id : String
  name : String
  parent_id : Option String
  level : Option Int
  has_children : Bool
deriving Repr, DecidableEq

/-- JS `String.prototype.trim`: drop surrounding whitespace. -/
def trimJS (s : String) : String :=
  String.mk (((s.toList.dropWhile Char.isWhitespace).reverse.dropWhile
    Char.isWhitespace).reverse)

/-- JS `String.prototype.startsWith`. -/
def strStartsWith (s p : String) : Bool :=
  s.toList.take p.toList.length == p.toList

/-- JS `String.prototype.toLowerCase` (ASCII case folding). -/
def toLowerJS (s : String) : String :=
  String.mk (s.toList.map Char.toLower)

/-- `stripQuotes`: remove the leading run and trailing run of `"` characters,
then trim surrounding whitespace (mirrors `str.replace(/^"+|"+$/g, '').trim()`;
`!str` short-circuits the empty string to itself). -/
def stripQuotes (str : String) : String :=
  if str = "" then ""
  else
    let noLead := str.toList.dropWhile (fun c => c = '"')
    let noTrail := (noLead.reverse.dropWhile (fun c => c = '"')).reverse
    trimJS (String.mk noTrail)

/-- JS `parseInt(s, 10)`: skip leading whitespace, read an optional sign and
then the longest leading digit run; `none` models `NaN` (no digits found). -/
def parseIntJS (s : String) : Option Int :=
  let cs := s.toList.dropWhile Char.isWhitespace
  let (neg, cs) :=
    match cs with
    | '-' :: rest => (true, rest)
    | '+' :: rest => (false, rest)
    | _ => (false, cs)
  let digits := cs.takeWhile Char.isDigit
  if digits = [] then none
  else
    let v : Int := digits.foldl (fun a c => a * 10 + (Int.ofNat (c.toNat - '0'.toNat))) 0
    some (if neg then -v else v)

/-- JS `x || 0` applied to a `parseInt` result: `NaN` and `0` are falsy. -/
def jsOrZero (v : Option Int) : Int :=
  match v with
  | none => 0
  | some k => if k = 0 then 0 else k

/-- JS `Set.add`: append at the end unless already present (insertion order). -/
def jsSetAdd (s : List String) (x : String) : List String :=
  if x ∈ s then s else s ++ [x]

/-- JS `Set.delete`: remove the element. -/
def jsSetDelete (s : List String) (x : String) : List String :=
  s.filter (fun y => y ≠ x)

/-- Case-insensitive-ready substring test, the semantics of JS
`String.prototype.includes`. -/
def strContains (s sub : String) : Bool :=
  (List.range (s.toList.length + 1)).any
    (fun i => ((s.toList.drop i).take sub.toList.length) == sub.toList)

/-! ## Record Normalizer -/

/-- Row filter of variant 1's `fetchData`
(`row.TERM_ID && row.TERM_FULL_NAME && !row.TERM_ID.startsWith(']')`):
raw truthiness of the two fields plus the bracket exclusion. -/
def rowKeptV1 (row : CSVRow) : Bool :=
  row.TERM_ID ≠ "" && row.TERM_FULL_NAME ≠ "" && !(strStartsWith row.TERM_ID "]")

/-- Row-to-node mapping of variant 1's `fetchData`. -/
def toNodeV1 (row : CSVRow) : HPONode :=
  { id := stripQuotes row.TERM_ID
    name := stripQuotes row.TERM_FULL_NAME
    parent_id := if row.PARENT_ID = "" then none else some (stripQuotes row.PARENT_ID)
    level := parseIntJS row.LEVEL
    has_children := false }

/-- `processedNodes` of variant 1's `fetchData`: filter then map. -/
def processedNodesV1 (rows : List CSVRow) : List HPONode :=
  (rows.filter rowKeptV1).map toNodeV1

/-- Row filter of `parseCSVChunk` in `part_003`
(`row.TERM_ID && row.TERM_FULL_NAME`). -/
def rowKeptV3 (row : CSVRow) : Bool :=
  row.TERM_ID ≠ "" && row.TERM_FULL_NAME ≠ ""

/-- Row-to-node mapping of `parseCSVChunk` in `part_003` (projected onto the
flat record shape; the nested `children` array starts empty). -/
def toNodeV3 (row : CSVRow) : HPONode :=
  { id := stripQuotes row.TERM_ID
    name := stripQuotes row.TERM_FULL_NAME
    parent_id := if row.PARENT_ID = "" then none else some (stripQuotes row.PARENT_ID)
    level := parseIntJS row.LEVEL
    has_children := false }

/-- `parsedNodes` of `parseCSVChunk` in `part_003`: filter then map. -/
def parsedNodesV3 (rows : List CSVRow) : List HPONode :=
  (rows.filter rowKeptV3).map toNodeV3

/-- The `LEVEL` computation of variant 2's `loadHPOData`:
`parseInt(row.LEVEL) || 0`. -/
def levelV2 (s : String) : Int :=
  jsOrZero (parseIntJS s)

/-! ## Hierarchy Index -/

/-- `nodesByParent.get(key)`: the children grouped under a parent key.  The
JS `Map` key is `node.parent_id`, which is either `null` or a string, so the
key type is `Option String` (the string `""` is a key distinct from `null`).
Grouping preserves the encounter order of `nodes`. -/
def nodesByParent (nodes : List HPONode) (key : Option String) : List HPONode :=
  nodes.filter (fun n => n.parent_id = key)

/-- `nodesById.get(i)`: the JS `Map` built with `map.set(node.id, node)`, so a
duplicated id resolves to the last record carrying it. -/
def nodesById (nodes : List HPONode) (i : String) : Option HPONode :=
  nodes.reverse.find? (fun n => n.id = i)

/-- The ids listed in `nodesByParent.get(pid)`. -/
def childIds (nodes : List HPONode) (pid : String) : List String :=
  (nodesByParent nodes (some pid)).map (fun n => n.id)

/-! ## Selection Engine -/

/-- Loop body of variant 1's `getDescendants` (lines 263-281): a stack-driven
traversal with a visited set; `currentId` itself is recorded only when it
differs from the requested `nodeId`.  The stack is a list whose head is the
top (`pop` takes the head; JS `push` order means the last child ends on top,
hence the `reverse`).  Fuel `0` with pending stack entries is unreachable for
the fuel used by `getDescendants` (proved below). -/
def getDescendantsAux (nodes : List HPONode) (nodeId : String) :
    Nat → List String → List String → List String → List String
  | _, [], _, descendants => descendants
  | 0, _ :: _, _, descendants => descendants
  | fuel + 1, currentId :: stack, visited, descendants =>
    if currentId ∈ visited then
      getDescendantsAux nodes nodeId fuel stack visited descendants
    else
      let visited' := currentId :: visited
      let descendants' :=
        if currentId ≠ nodeId then descendants ++ [currentId] else descendants
      let pushes := (childIds nodes currentId).filter (fun c => c ∉ visited')
      getDescendantsAux nodes nodeId fuel (pushes.reverse ++ stack) visited' descendants'

/-- Fuel that the sufficiency lemma below shows is never exhausted. -/
def descFuel (nodes : List HPONode) : Nat :=
  (nodes.length + 1) * (nodes.length + 2) + 1

/-- Variant 1's `getDescendants` (lines 263-281): ids reachable from `nodeId`
via the children relation, excluding `nodeId` itself. -/
def getDescendants (nodes : List HPONode) (nodeId : String) : List String :=
  getDescendantsAux nodes nodeId (descFuel nodes) [nodeId] [] []

/-- Loop body of variant 2's `getDescendants` (lines 841-862): identical to
variant 1 except that `descendants.push(currentId)` is unconditional, so the
requested node's own id is recorded as well. -/
def getDescendantsAuxV2 (nodes : List HPONode) :
    Nat → List String → List String → List String → List String
  | _, [], _, descendants => descendants
  | 0, _ :: _, _, descendants => descendants
  | fuel + 1, currentId :: stack, visited, descendants =>
    if currentId ∈ visited then
      getDescendantsAuxV2 nodes fuel stack visited descendants
    else
      let visited' := currentId :: visited
      let descendants' := descendants ++ [currentId]
      let pushes := (childIds nodes currentId).filter (fun c => c ∉ visited')
      getDescendantsAuxV2 nodes fuel (pushes.reverse ++ stack) visited' descendants'

/-- Variant 2's `getDescendants` (lines 841-862). -/
def getDescendantsV2 (nodes : List HPONode) (nodeId : String) : List String :=
  getDescendantsAuxV2 nodes (descFuel nodes) [nodeId] [] []

/-- The children array a node object carries in the tree that `part_003`'s
`loadChunkedData` builds: `parent.children` receives, in parse order, every
parsed node whose truthy `parentId` resolves through `nodesMap` to that
object (`nodesMap.set` is last-write-wins, matching `nodesById`). -/
def childrenV3 (nodes : List HPONode) (n : HPONode) : List HPONode :=
  nodes.filter (fun c =>
    match c.parent_id with
    | none => false
    | some pid => if pid = "" then false else decide (nodesById nodes pid = some n))

/-- Loop of `getDescendantIds` in `part_003` (lines 33-46): a FIFO breadth
first traversal of the children arrays with no visited guard; the fuel models
the unbounded `while` loop, `none` meaning it has not finished. -/
def getDescendantIdsAux (nodes : List HPONode) :
    Nat → List HPONode → List String → Option (List String)
  | _, [], descendantIds => some descendantIds
  | 0, _ :: _, _ => none
  | fuel + 1, currentNode :: queue, descendantIds =>
    getDescendantIdsAux nodes fuel (queue ++ childrenV3 nodes currentNode)
      (descendantIds ++ [currentNode.id])

/-- `getDescendantIds` of `part_003` (lines 33-46): breadth-first collection
of the ids below `node`, starting from `node.children`. -/
def getDescendantIds (nodes : List HPONode) (node : HPONode) : Option (List String) :=
  getDescendantIdsAux nodes (descFuel nodes) (childrenV3 nodes node) []

/-- `handleNodeSelect` of variant 1 (lines 284-314), restricted to its effect
on the selection set: on `checked` add every descendant and then the node
itself; otherwise delete them. -/
def handleNodeSelect (nodes : List HPONode) (selectedNodes : List String)
    (node : HPONode) (checked : Bool) : List String :=
  let descendants := getDescendants nodes node.id
  if checked then
    jsSetAdd (descendants.foldl jsSetAdd selectedNodes) node.id
  else
    jsSetDelete (descendants.foldl jsSetDelete selectedNodes) node.id

/-- `isNodeSelected`: membership in the selection set. -/
def isNodeSelected (selectedNodes : List String) (nodeId : String) : Bool :=
  nodeId ∈ selectedNodes

/-- `isNodePartiallySelected` of variant 1 (lines 322-326). -/
def isNodePartiallySelected (nodes : List HPONode) (selectedNodes : List String)
    (nodeId : String) : Bool :=
  let descendants := getDescendants nodes nodeId
  let selectedDescendants := descendants.filter (fun i => i ∈ selectedNodes)
  selectedDescendants.length > 0 && selectedDescendants.length < descendants.length

/-- `isNodePartiallySelected` of variant 2 (lines 897-901): the same counting
test, but over the self-including `getDescendants` of lines 841-862. -/
def isNodePartiallySelectedV2 (nodes : List HPONode) (selectedNodes : List String)
    (nodeId : String) : Bool :=
  let descendants := getDescendantsV2 nodes nodeId
  let selectedDescendants := descendants.filter (fun i => i ∈ selectedNodes)
  selectedDescendants.length > 0 && selectedDescendants.length < descendants.length

/-! ## Output Adapter -/

/-- The `setVariables` value computed inside `handleNodeSelect`
(lines 301-311): map each selected id to `"{id} - {name}"` through an
`Array.prototype.find` over `nodes`, drop unresolved ids, join with `","`
(the empty selection yields `""`). -/
def serializeSelection (nodes : List HPONode) (selectedNodes : List String) : String :=
  let selectedTerms :=
    (selectedNodes.map (fun i =>
      match nodes.find? (fun n => n.id = i) with
      | some n => some (n.id ++ " - " ++ n.name)
      | none => none)).filterMap id
  if selectedTerms.length > 0 then String.intercalate "," selectedTerms else ""

/-- The label a selected id resolves to through `nodes.find(...)`. -/
def labelFor (nodes : List HPONode) (i : String) : String :=
  match nodes.find? (fun n => n.id = i) with
  | some n => n.name
  | none => ""

/-! ## View Projector -/

/-- The match predicate of search mode: the lower-cased name or id contains
the (already lower-cased) search term as a substring. -/
def matchesTerm (searchLower : String) (node : HPONode) : Bool :=
  strContains (toLowerJS node.name) searchLower ||
    strContains (toLowerJS node.id) searchLower

/-- The ancestor walk of search mode (lines 197-204) and, textually identical,
of the auto-expand effect (lines 336-343):
`while (current.parent_id) { set.add(current.parent_id); const parent =
nodesById.get(current.parent_id); if (!parent) break; current = parent; }`.
JS truthiness makes the loop stop on `null` and on `""`.  The loop has no
visited guard, so it is fuel-indexed here; `none` for every fuel means the
loop never exits. -/
def ancWalkAux (nodes : List HPONode) :
    Nat → HPONode → List String → Option (List String)
  | 0, _, _ => none
  | fuel + 1, current, ancestorNodes =>
    match current.parent_id with
    | none => some ancestorNodes
    | some pid =>
      if pid = "" then some ancestorNodes
      else
        let anc' := jsSetAdd ancestorNodes pid
        match nodesById nodes pid with
        | none => some anc'
        | some parent => ancWalkAux nodes fuel parent anc'

/-- The match-and-ancestor phase of search-mode `visibleNodes`
(lines 185-206): for each node in order, if it matches, record its id in
`matchingNodes` and run the ancestor walk extending `ancestorNodes`. -/
def searchSets (nodes : List HPONode) (term : String) (fuel : Nat) :
    Option (List String × List String) :=
  nodes.foldlM
    (fun (sets : List String × List String) node =>
      if matchesTerm (toLowerJS term) node then
        let m' := jsSetAdd sets.1 node.id
        (ancWalkAux nodes fuel node sets.2).map (fun anc => (m', anc))
      else
        some sets)
    ([], [])

/-- `addNodeAndChildren` of search mode (lines 209-223): visit-guard first,
then emit if included, then recurse into included children only. -/
def addNodeAndChildren (nodes : List HPONode) (included : String → Bool) :
    Nat → HPONode → List HPONode × List String → Option (List HPONode × List String)
  | 0, _, _ => none
  | fuel + 1, node, (result, visited) =>
    if node.id ∈ visited then some (result, visited)
    else
      let visited' := node.id :: visited
      if included node.id then
        ((nodesByParent nodes (some node.id)).filter (fun c => included c.id)).foldlM
          (fun st c => addNodeAndChildren nodes included fuel c st)
          (result ++ [node], visited')
      else
        some (result, visited')

/-- `addNode` of plain mode (lines 230-240): visit-guard, emit, recurse into
the children when the node is expanded. -/
def addNode (nodes : List HPONode) (expandedNodes : List String) :
    Nat → HPONode → List HPONode × List String → Option (List HPONode × List String)
  | 0, _, _ => none
  | fuel + 1, node, (result, visited) =>
    if node.id ∈ visited then some (result, visited)
    else
      let visited' := node.id :: visited
      let result' := result ++ [node]
      if node.id ∈ expandedNodes then
        (nodesByParent nodes (some node.id)).foldlM
          (fun st c => addNode nodes expandedNodes fuel c st)
          (result', visited')
      else
        some (result', visited')

/-- The inclusion test of search mode:
`matchingNodes.has(id) || ancestorNodes.has(id)`. -/
def includedIn (sets : List String × List String) (i : String) : Bool :=
  i ∈ sets.1 || i ∈ sets.2

/-- The `visibleNodes` memo (lines 181-247): search mode when the debounced
term is truthy, plain mode otherwise; both start from `nodesByParent.get(null)`. -/
def visibleNodes (nodes : List HPONode) (expandedNodes : List String)
    (debouncedSearchTerm : String) (fuel : Nat) : Option (List HPONode) :=
  if debouncedSearchTerm ≠ "" then
    (searchSets nodes debouncedSearchTerm fuel).bind (fun sets =>
      ((nodesByParent nodes none).foldlM
        (fun st r => addNodeAndChildren nodes (includedIn sets) fuel r st)
        ([], [])).map (fun st => st.1))
  else
    ((nodesByParent nodes none).foldlM
      (fun st r => addNode nodes expandedNodes fuel r st)
      ([], [])).map (fun st => st.1)

/-- `visibleNodes` at the canonical fuel, which the sufficiency lemmas below
show is enough whenever the loops of the source terminate. -/
def visibleNodesDefault (nodes : List HPONode) (expandedNodes : List String)
    (debouncedSearchTerm : String) : Option (List HPONode) :=
  visibleNodes nodes expandedNodes debouncedSearchTerm (nodes.length + 1)

/-- `rootNodes` of `part_003`'s `loadChunkedData` (lines 240-243):
`parsedNodes.filter(node => !node.parentId || !nodesMap.has(node.parentId))`. -/
def rootNodesV3 (nodes : List HPONode) : List HPONode :=
  nodes.filter (fun n =>
    match n.parent_id with
    | none => true
    | some pid => if pid = "" then true else !(nodes.any (fun m => m.id = pid)))

/-! ## Well-formedness of a record set -/

/-- The parent chain of `n` resolves, within `fuel` steps, to a node without
a (truthy) parent reference.  This fails on dangling parent ids, on `""`
parent ids, and on parent cycles. -/
def chainToRoot (nodes : List HPONode) : Nat → HPONode → Bool
  | 0, _ => false
  | fuel + 1, n =>
    match n.parent_id with
    | none => true
    | some pid =>
      if pid = "" then false
      else
        match nodesById nodes pid with
        | none => false
        | some p => chainToRoot nodes fuel p

/-- Every node's parent chain reaches a root within `nodes.length + 1` steps
(the bound is sufficient for any acyclic, dangling-free record set with
distinct ids). -/
def wellFormedChains (nodes : List HPONode) : Bool :=
  nodes.all (fun n => chainToRoot nodes (nodes.length + 1) n)

/-- `p` is the resolved parent of `c`: the step relation whose transitive
closure is the proper-ancestor relation. -/
def AncStep (nodes : List HPONode) (p c : HPONode) : Prop :=
  p ∈ nodes ∧ c.parent_id = some p.id

/-! ## Concrete record sets used by witnesses and counterexamples -/

/-- Example records of spec §8: `RootA` with children `ChildA`, `ChildB`. -/
def exRootA : HPONode := ⟨"HP:1", "RootA", none, some 0, false⟩

def exChildA : HPONode := ⟨"HP:2", "ChildA", some "HP:1", some 1, false⟩

def exChildB : HPONode := ⟨"HP:3", "ChildB", some "HP:1", some 1, false⟩

def exNodes : List HPONode := [exRootA, exChildA, exChildB]

/-- A two-node parent cycle: `a1`'s parent is `b1` and `b1`'s parent is `a1`. -/
def cycA : HPONode := ⟨"a1", "CycleA", some "b1", some 0, false⟩

def cycB : HPONode := ⟨"b1", "CycleB", some "a1", some 1, false⟩

def cycNodes : List HPONode := [cycA, cycB]

/-- A record set with a dangling parent chain: `p1`'s parent `zz` is absent,
and `m1` (the only node matching the term `"match"`) is a child of `p1`. -/
def dangMid : HPONode := ⟨"p1", "Mid", some "zz", some 1, false⟩

def dangMatch : HPONode := ⟨"m1", "MatchMe", some "p1", some 2, false⟩

def dangNodes : List HPONode := [dangMid, dangMatch]

/-- A single node whose parent id `HP:999` is absent from the record set. -/
def orphanNode : HPONode := ⟨"n1", "Orphan", some "HP:999", some 0, false⟩

def orphanNodes : List HPONode := [orphanNode]

/-- A row whose `TERM_ID` consists solely of quote characters. -/
def quotesRow : CSVRow := ⟨"\"\"", "X", "", "0"⟩

/-- A row whose `TERM_ID` starts with `]`. -/
def bracketRow : CSVRow := ⟨"]a", "X", "", "0"⟩

/-- A row whose `LEVEL` does not parse as an integer. -/
def badLevelRow : CSVRow := ⟨"a", "b", "", "abc"⟩

/-! ## Proof-infrastructure definitions -/

/-- One step of the children relation on ids: `b` is listed among the children
of `a` in the hierarchy index. -/
def DescStep (nodes : List HPONode) (a b : String) : Prop :=
  b ∈ childIds nodes a

/-- The id universe touched by `getDescendantsAux`. -/
def idUniverse (nodes : List HPONode) (nodeId : String) : List String :=
  nodeId :: nodes.map (fun n => n.id)

/-- State invariant of both emitters: emitted ids are distinct and recorded
in the visited set. -/
def emitInv (s : List HPONode × List String) : Prop :=
  (s.1.map (fun v => v.id)).Nodup ∧ ∀ v ∈ s.1, v.id ∈ s.2

/-- How one (or several chained) `addNodeAndChildren` calls relate the
emission state before and after. -/
structure emitRelS (nodes : List HPONode) (included : String → Bool)
    (st st' : List HPONode × List String) : Prop where
  vmono : ∀ x ∈ st.2, x ∈ st'.2
  rmono : ∀ v ∈ st.1, v ∈ st'.1
  rsound : ∀ v ∈ st'.1, v ∈ st.1 ∨ (included v.id = true ∧ v ∈ nodes ∧
      ∀ c ∈ nodesByParent nodes (some v.id), included c.id = true → c.id ∈ st'.2)
  vemit : ∀ x ∈ st'.2, x ∈ st.2 ∨ (included x = true → ∃ v ∈ st'.1, v.id = x)
  inv : emitInv st → emitInv st'

/-- How one (or several chained) `addNode` calls relate the emission state. -/
structure emitRelP (nodes : List HPONode)
    (st st' : List HPONode × List String) : Prop where
  vmono : ∀ x ∈ st.2, x ∈ st'.2
  rmono : ∀ v ∈ st.1, v ∈ st'.1
  rsound : ∀ v ∈ st'.1, v ∈ st.1 ∨ (v ∈ nodes ∧
      (v.parent_id = none ∨ ∃ w ∈ nodes, v.parent_id = some w.id))
  inv : emitInv st → emitInv st'

/-- Number of record ids not yet in the visited set. -/
def uvCount (nodes : List HPONode) (visited : List String) : Nat :=
  ((nodes.map (fun n => n.id)).dedup.filter (fun i => i ∉ visited)).length

end HPO

namespace HPO

/-! ## Basic lemmas about the JS set and lookup embeddings -/

theorem mem_jsSetAdd (s : List String) (a x : String) :
    x ∈ jsSetAdd s a ↔ x ∈ s ∨ x = a := by
  unfold jsSetAdd
  split <;> simp_all

theorem mem_jsSetDelete (s : List String) (a x : String) :
    x ∈ jsSetDelete s a ↔ x ∈ s ∧ x ≠ a := by
  unfold jsSetDelete
  simp

theorem mem_foldl_jsSetAdd (l s : List String) (x : String) :
    x ∈ l.foldl jsSetAdd s ↔ x ∈ s ∨ x ∈ l := by
  induction l generalizing s with
  | nil => simp
  | cons a tl ih => simp [List.foldl_cons, ih, mem_jsSetAdd]; tauto

theorem mem_foldl_jsSetDelete (l s : List String) (x : String) :
    x ∈ l.foldl jsSetDelete s ↔ x ∈ s ∧ x ∉ l := by
  induction l generalizing s with
  | nil => simp
  | cons a tl ih => simp [List.foldl_cons, ih, mem_jsSetDelete]; tauto

theorem exists_find?_of_mem {nodes : List HPONode} {i : String}
    (h : ∃ n ∈ nodes, n.id = i) :
    ∃ m, nodes.find? (fun n => n.id = i) = some m ∧ m.id = i := by
  obtain ⟨n, hn, hid⟩ := h
  have hs : (nodes.find? (fun n => n.id = i)).isSome = true := by
    rw [List.find?_isSome]
    exact ⟨n, hn, by simp [hid]⟩
  obtain ⟨m, hm⟩ := Option.isSome_iff_exists.mp hs
  exact ⟨m, hm, by simpa using List.find?_some hm⟩

end HPO

namespace HPO

theorem childIds_length_le (nodes : List HPONode) (pid : String) :
    (childIds nodes pid).length ≤ nodes.length := by
  unfold childIds nodesByParent
  rw [List.length_map]
  exact List.length_filter_le _ _

theorem mem_childIds_mem_ids {nodes : List HPONode} {pid c : String}
    (h : c ∈ childIds nodes pid) : c ∈ nodes.map (fun n => n.id) := by
  unfold childIds nodesByParent at h
  obtain ⟨n, hn, rfl⟩ := List.mem_map.mp h
  exact List.mem_map.mpr ⟨n, (List.mem_filter.mp hn).1, rfl⟩

theorem getDescendantsAux_spec (nodes : List HPONode) (nodeId : String) :
    ∀ fuel stack visited descendants,
      ((idUniverse nodes nodeId).length - visited.length) *
          ((idUniverse nodes nodeId).length + 1) + stack.length ≤ fuel →
      visited.Nodup →
      (∀ v ∈ visited, v ∈ idUniverse nodes nodeId) →
      (∀ v ∈ stack, v ∈ idUniverse nodes nodeId) →
      (∀ v ∈ visited, v = nodeId ∨ Relation.TransGen (DescStep nodes) nodeId v) →
      (∀ v ∈ stack, v = nodeId ∨ Relation.TransGen (DescStep nodes) nodeId v) →
      (∀ x, x ∈ descendants ↔ (x ∈ visited ∧ x ≠ nodeId)) →
      (∀ v ∈ visited, ∀ c ∈ childIds nodes v, c ∈ visited ∨ c ∈ stack) →
      ∃ V : String → Prop,
        (∀ v ∈ visited, V v) ∧ (∀ v ∈ stack, V v) ∧
        (∀ v, V v → v = nodeId ∨ Relation.TransGen (DescStep nodes) nodeId v) ∧
        (∀ v, V v → ∀ c ∈ childIds nodes v, V c) ∧
        (∀ x, x ∈ getDescendantsAux nodes nodeId fuel stack visited descendants
          ↔ (V x ∧ x ≠ nodeId)) := by
  intro fuel
  induction fuel with
  | zero =>
    intro stack visited descendants hfuel hnd hvU hsU hvR hsR hacc hclosed
    cases stack with
    | nil =>
      refine ⟨fun x => x ∈ visited, fun v hv => hv, by simp, hvR, ?_, ?_⟩
      · intro v hv c hc
        rcases hclosed v hv c hc with h | h
        · exact h
        · cases h
      · intro x
        simpa [getDescendantsAux] using hacc x
    | cons cur rest =>
      exfalso
      simp only [List.length_cons] at hfuel
      omega
  | succ fuel ih =>
    intro stack visited descendants hfuel hnd hvU hsU hvR hsR hacc hclosed
    cases stack with
    | nil =>
      refine ⟨fun x => x ∈ visited, fun v hv => hv, by simp, hvR, ?_, ?_⟩
      · intro v hv c hc
        rcases hclosed v hv c hc with h | h
        · exact h
        · cases h
      · intro x
        simpa [getDescendantsAux] using hacc x
    | cons cur rest =>
      by_cases hcur : cur ∈ visited
      · -- already visited: pop and continue
        have heq : getDescendantsAux nodes nodeId (fuel + 1) (cur :: rest) visited descendants
            = getDescendantsAux nodes nodeId fuel rest visited descendants := by
          simp [getDescendantsAux, hcur]
        have hfuel' : ((idUniverse nodes nodeId).length - visited.length) *
            ((idUniverse nodes nodeId).length + 1) + rest.length ≤ fuel := by
          simp only [List.length_cons] at hfuel
          omega
        obtain ⟨V, h1, h2, h3, h4, h5⟩ :=
          ih rest visited descendants hfuel' hnd hvU
            (fun v hv => hsU v (List.mem_cons_of_mem _ hv)) hvR
            (fun v hv => hsR v (List.mem_cons_of_mem _ hv)) hacc
            (by
              intro v hv c hc
              rcases hclosed v hv c hc with h | h
              · exact Or.inl h
              · rcases List.mem_cons.mp h with rfl | h'
                · exact Or.inl hcur
                · exact Or.inr h')
        refine ⟨V, h1, ?_, h3, h4, ?_⟩
        · intro v hv
          rcases List.mem_cons.mp hv with rfl | h'
          · exact h1 v hcur
          · exact h2 v h'
        · intro x
          rw [heq]
          exact h5 x
      · -- new node: visit it
        have heq : getDescendantsAux nodes nodeId (fuel + 1) (cur :: rest) visited descendants
            = getDescendantsAux nodes nodeId fuel
                (((childIds nodes cur).filter (fun c => c ∉ (cur :: visited))).reverse ++ rest)
                (cur :: visited)
                (if cur ≠ nodeId then descendants ++ [cur] else descendants) := by
          simp [getDescendantsAux, hcur]
        have hndv : (cur :: visited).Nodup := List.nodup_cons.mpr ⟨hcur, hnd⟩
        have hvU' : ∀ v ∈ cur :: visited, v ∈ idUniverse nodes nodeId := by
          intro v hv
          rcases List.mem_cons.mp hv with rfl | h'
          · exact hsU v (by simp)
          · exact hvU v h'
        have hvlen : visited.length < (idUniverse nodes nodeId).length := by
          have hsp := hndv.subperm (fun v hv => hvU' v hv)
          have := hsp.length_le
          simp only [List.length_cons] at this
          omega
        have hpushlen :
            (((childIds nodes cur).filter (fun c => c ∉ (cur :: visited))).reverse).length
              ≤ nodes.length := by
          rw [List.length_reverse]
          exact le_trans (List.length_filter_le _ _) (childIds_length_le nodes cur)
        have hUlen : (idUniverse nodes nodeId).length = nodes.length + 1 := by
          simp [idUniverse]
        have hfuel' : ((idUniverse nodes nodeId).length - (cur :: visited).length) *
            ((idUniverse nodes nodeId).length + 1) +
            ((((childIds nodes cur).filter (fun c => c ∉ (cur :: visited))).reverse ++ rest)).length
            ≤ fuel := by
          rw [List.length_append, List.length_cons]
          set L := (idUniverse nodes nodeId).length with hL
          have hsplit : (L - visited.length) = (L - (visited.length + 1)) + 1 := by omega
          rw [hsplit, add_mul, one_mul] at hfuel
          simp only [List.length_cons] at hfuel
          set P := (L - (visited.length + 1)) * (L + 1) with hP
          omega
        have hcurR : cur = nodeId ∨ Relation.TransGen (DescStep nodes) nodeId cur :=
          hsR cur (by simp)
        have hsR' : ∀ v ∈ (((childIds nodes cur).filter
              (fun c => c ∉ (cur :: visited))).reverse ++ rest),
            v = nodeId ∨ Relation.TransGen (DescStep nodes) nodeId v := by
          intro v hv
          rcases List.mem_append.mp hv with h' | h'
          · have hchild : v ∈ childIds nodes cur :=
              (List.mem_filter.mp (List.mem_reverse.mp h')).1
            rcases hcurR with rfl | hr
            · exact Or.inr (Relation.TransGen.single hchild)
            · exact Or.inr (Relation.TransGen.tail hr hchild)
          · exact hsR v (List.mem_cons_of_mem _ h')
        have hsU' : ∀ v ∈ (((childIds nodes cur).filter
              (fun c => c ∉ (cur :: visited))).reverse ++ rest),
            v ∈ idUniverse nodes nodeId := by
          intro v hv
          rcases List.mem_append.mp hv with h' | h'
          · have hchild : v ∈ childIds nodes cur :=
              (List.mem_filter.mp (List.mem_reverse.mp h')).1
            exact List.mem_cons_of_mem _ (mem_childIds_mem_ids hchild)
          · exact hsU v (List.mem_cons_of_mem _ h')
        have hacc' : ∀ x, x ∈ (if cur ≠ nodeId then descendants ++ [cur] else descendants)
            ↔ (x ∈ cur :: visited ∧ x ≠ nodeId) := by
          intro x
          by_cases hne : cur = nodeId
          · rw [if_neg (by simp [hne])]
            rw [hacc x]
            constructor
            · rintro ⟨hmem, hxne⟩
              exact ⟨List.mem_cons_of_mem _ hmem, hxne⟩
            · rintro ⟨hmem, hxne⟩
              rcases List.mem_cons.mp hmem with rfl | h'
              · exact absurd hne hxne
              · exact ⟨h', hxne⟩
          · rw [if_pos hne]
            rw [List.mem_append]
            constructor
            · rintro (hmem | hx)
              · obtain ⟨h1, h2⟩ := (hacc x).mp hmem
                exact ⟨List.mem_cons_of_mem _ h1, h2⟩
              · rcases List.mem_singleton.mp hx with rfl
                exact ⟨by simp, hne⟩
            · rintro ⟨hmem, hxne⟩
              rcases List.mem_cons.mp hmem with rfl | h'
              · exact Or.inr (by simp)
              · exact Or.inl ((hacc x).mpr ⟨h', hxne⟩)
        have hclosed' : ∀ v ∈ cur :: visited, ∀ c ∈ childIds nodes v,
            c ∈ cur :: visited ∨
            c ∈ (((childIds nodes cur).filter (fun c => c ∉ (cur :: visited))).reverse ++ rest) := by
          intro v hv c hc
          rcases List.mem_cons.mp hv with rfl | h'
          · by_cases hcv : c ∈ v :: visited
            · exact Or.inl hcv
            · refine Or.inr (List.mem_append.mpr (Or.inl ?_))
              exact List.mem_reverse.mpr (List.mem_filter.mpr ⟨hc, by simpa using hcv⟩)
          · rcases hclosed v h' c hc with h'' | h''
            · exact Or.inl (List.mem_cons_of_mem _ h'')
            · rcases List.mem_cons.mp h'' with rfl | h3
              · exact Or.inl (by simp)
              · exact Or.inr (List.mem_append.mpr (Or.inr h3))
        obtain ⟨V, h1, h2, h3, h4, h5⟩ :=
          ih _ _ _ hfuel' hndv hvU' hsU'
            (by
              intro v hv
              rcases List.mem_cons.mp hv with rfl | h'
              · exact hcurR
              · exact hvR v h')
            hsR' hacc' hclosed'
        refine ⟨V, ?_, ?_, h3, h4, ?_⟩
        · intro v hv
          exact h1 v (List.mem_cons_of_mem _ hv)
        · intro v hv
          rcases List.mem_cons.mp hv with rfl | h'
          · exact h1 v (by simp)
          · exact h2 v (List.mem_append.mpr (Or.inr h'))
        · intro x
          rw [heq]
          exact h5 x

/-- Reachability characterization of variant 1's `getDescendants`. -/
theorem mem_getDescendants_iff (nodes : List HPONode) (nodeId d : String) :
    d ∈ getDescendants nodes nodeId ↔
      (Relation.TransGen (DescStep nodes) nodeId d ∧ d ≠ nodeId) := by
  have hfuel : ((idUniverse nodes nodeId).length - ([] : List String).length) *
      ((idUniverse nodes nodeId).length + 1) + ([nodeId] : List String).length
      ≤ descFuel nodes := by
    simp [idUniverse, descFuel]
  obtain ⟨V, hvV, hsV, hsound, hclosed, hres⟩ :=
    getDescendantsAux_spec nodes nodeId (descFuel nodes) [nodeId] [] []
      hfuel (by simp) (by simp)
      (by intro v hv; rw [List.mem_singleton] at hv; simp [idUniverse, hv])
      (by simp)
      (by intro v hv; rw [List.mem_singleton] at hv; exact Or.inl hv)
      (by simp)
      (by simp)
  rw [getDescendants, hres d]
  constructor
  · rintro ⟨hV, hne⟩
    rcases hsound d hV with rfl | hr
    · exact absurd rfl hne
    · exact ⟨hr, hne⟩
  · rintro ⟨hreach, hne⟩
    have hnode : V nodeId := hsV nodeId (by simp)
    have hcompl : ∀ x, Relation.TransGen (DescStep nodes) nodeId x → V x := by
      intro x hx
      induction hx with
      | single h => exact hclosed nodeId hnode _ h
      | tail hr h ih2 => exact hclosed _ ih2 _ h
    exact ⟨hcompl d hreach, hne⟩

end HPO

namespace HPO

theorem nodesById_eq_some {nodes : List HPONode} {i : String} {p : HPONode}
    (h : nodesById nodes i = some p) : p ∈ nodes ∧ p.id = i := by
  unfold nodesById at h
  have hm := List.mem_reverse.mp (List.mem_of_find?_eq_some h)
  have hp := List.find?_some h
  exact ⟨hm, by simpa using hp⟩

theorem nodesById_eq_none {nodes : List HPONode} {i : String}
    (h : nodesById nodes i = none) : ∀ n ∈ nodes, n.id ≠ i := by
  unfold nodesById at h
  intro n hn
  have := List.find?_eq_none.mp h n (List.mem_reverse.mpr hn)
  simpa using this

theorem nodesById_of_mem {nodes : List HPONode} {p : HPONode}
    (hnd : (nodes.map (fun n => n.id)).Nodup) (hp : p ∈ nodes) :
    nodesById nodes p.id = some p := by
  rcases hfind : nodesById nodes p.id with _ | q
  · have := nodesById_eq_none hfind p hp
    simp at this
  · obtain ⟨hqm, hqi⟩ := nodesById_eq_some hfind
    rw [List.inj_on_of_nodup_map hnd hqm hp hqi]

/-- Ids of two distinct nodes of a duplicate-free record set are distinct. -/
theorem eq_of_mem_of_id_eq {nodes : List HPONode} {p q : HPONode}
    (hnd : (nodes.map (fun n => n.id)).Nodup) (hp : p ∈ nodes) (hq : q ∈ nodes)
    (hid : p.id = q.id) : p = q :=
  List.inj_on_of_nodup_map hnd hp hq hid

/-- The accumulator only grows along the ancestor walk. -/
theorem ancWalkAux_sub {nodes : List HPONode} :
    ∀ {fuel : Nat} {cur : HPONode} {acc res : List String},
      ancWalkAux nodes fuel cur acc = some res → ∀ x ∈ acc, x ∈ res := by
  intro fuel
  induction fuel with
  | zero => intro cur acc res h; exact absurd h (by simp [ancWalkAux])
  | succ fuel ih =>
    intro cur acc res h x hx
    simp only [ancWalkAux] at h
    split at h
    · injection h with h; exact h ▸ hx
    · split at h
      · injection h with h; exact h ▸ hx
      · split at h
        · injection h with h
          exact h ▸ ((mem_jsSetAdd _ _ _).mpr (Or.inl hx))
        · exact ih h x ((mem_jsSetAdd _ _ _).mpr (Or.inl hx))

/-- Everything the walk adds is a proper ancestor of the start node (or a
dangling id resolved by no record). -/
theorem ancWalkAux_sound {nodes : List HPONode} :
    ∀ {fuel : Nat} {cur : HPONode} {acc res : List String},
      ancWalkAux nodes fuel cur acc = some res →
      ∀ x ∈ res, x ∈ acc ∨ nodesById nodes x = none ∨
        ∃ px, nodesById nodes x = some px ∧
          Relation.TransGen (AncStep nodes) px cur := by
  intro fuel
  induction fuel with
  | zero => intro cur acc res h; exact absurd h (by simp [ancWalkAux])
  | succ fuel ih =>
    intro cur acc res h x hx
    simp only [ancWalkAux] at h
    split at h
    · injection h with h; exact Or.inl (h ▸ hx)
    · rename_i pid hpid
      split at h
      · injection h with h; exact Or.inl (h ▸ hx)
      · rename_i hempty
        split at h
        · rename_i hby
          injection h with h
          rcases (mem_jsSetAdd _ _ _).mp (h ▸ hx) with h' | rfl
          · exact Or.inl h'
          · exact Or.inr (Or.inl hby)
        · rename_i parent hby
          obtain ⟨hpm, hpi⟩ := nodesById_eq_some hby
          have hstep : AncStep nodes parent cur := ⟨hpm, by rw [hpid, hpi]⟩
          rcases ih h x hx with h' | h' | ⟨px, hpx, hr⟩
          · rcases (mem_jsSetAdd _ _ _).mp h' with h'' | rfl
            · exact Or.inl h''
            · exact Or.inr (Or.inr ⟨parent, hby, Relation.TransGen.single hstep⟩)
          · exact Or.inr (Or.inl h')
          · exact Or.inr (Or.inr ⟨px, hpx, Relation.TransGen.tail hr hstep⟩)

/-- On a record set with distinct ids, the walk from `cur` records the id of
every proper ancestor of `cur`, provided `cur`'s chain resolves to a root
within the walk's own fuel. -/
theorem ancWalkAux_complete {nodes : List HPONode}
    (hnd : (nodes.map (fun n => n.id)).Nodup) :
    ∀ {fuel : Nat} {cur : HPONode} {acc res : List String},
      chainToRoot nodes fuel cur = true →
      ancWalkAux nodes fuel cur acc = some res →
      ∀ a, Relation.TransGen (AncStep nodes) a cur → a.id ∈ res := by
  intro fuel
  induction fuel with
  | zero => intro cur acc res hc; exact absurd hc (by simp [chainToRoot])
  | succ fuel ih =>
    intro cur acc res hc h a ha
    simp only [chainToRoot] at hc
    simp only [ancWalkAux] at h
    split at hc
    · -- cur is a root: it has no ancestors
      rename_i hpid
      exfalso
      rcases (Relation.transGen_iff _ _ _).mp ha with hstep | ⟨c, _, hstep⟩ <;>
        · obtain ⟨_, hpar⟩ := hstep
          rw [hpid] at hpar
          cases hpar
    · rename_i pid hpid
      simp only [hpid] at h
      split at hc
      · cases hc
      · rename_i hempty
        rw [if_neg hempty] at h
        split at hc
        · cases hc
        · rename_i parent hby
          simp only [hby] at h
          obtain ⟨hpm, hpi⟩ := nodesById_eq_some hby
          have huniq : ∀ q, AncStep nodes q cur → q = parent := by
            rintro q ⟨hqm, hqp⟩
            rw [hpid] at hqp
            injection hqp with hqp
            exact eq_of_mem_of_id_eq hnd hqm hpm (by rw [hpi, ← hqp])
          have hpid_mem : pid ∈ jsSetAdd acc pid :=
            (mem_jsSetAdd _ _ _).mpr (Or.inr rfl)
          rcases (Relation.transGen_iff _ _ _).mp ha with hstep | ⟨c, hr, hstep⟩
          · rw [huniq a hstep, hpi]
            exact ancWalkAux_sub h pid hpid_mem
          · rw [huniq c hstep] at hr
            exact ih hc h a hr

/-- If the chain resolves within the fuel, the walk completes. -/
theorem ancWalkAux_isSome {nodes : List HPONode} :
    ∀ {fuel : Nat} {cur : HPONode},
      chainToRoot nodes fuel cur = true →
      ∀ acc, (ancWalkAux nodes fuel cur acc).isSome := by
  intro fuel
  induction fuel with
  | zero => intro cur hc; exact absurd hc (by simp [chainToRoot])
  | succ fuel ih =>
    intro cur hc acc
    simp only [chainToRoot] at hc
    simp only [ancWalkAux]
    split
    · simp
    · rename_i pid hpid
      simp only [hpid] at hc
      by_cases hempty : pid = ""
      · rw [if_pos hempty] at hc; cases hc
      · rw [if_neg hempty] at hc ⊢
        rcases hby : nodesById nodes pid with _ | parent
        · simp only [hby] at hc; cases hc
        · simp only [hby] at hc ⊢
          exact ih hc _

end HPO

namespace HPO

theorem emitRelS_refl (nodes : List HPONode) (included : String → Bool) (s) :
    emitRelS nodes included s s :=
  ⟨fun _ h => h, fun _ h => h, fun _ h => Or.inl h, fun _ h => Or.inl h, id⟩

theorem emitRelS_trans {nodes : List HPONode} {included : String → Bool} {s t u}
    (h1 : emitRelS nodes included s t) (h2 : emitRelS nodes included t u) :
    emitRelS nodes included s u := by
  obtain ⟨a1, b1, c1, d1, e1⟩ := h1
  obtain ⟨a2, b2, c2, d2, e2⟩ := h2
  refine ⟨fun x h => a2 x (a1 x h), fun v h => b2 v (b1 v h), ?_, ?_, fun h => e2 (e1 h)⟩
  · intro v hv
    rcases c2 v hv with h | h
    · rcases c1 v h with h' | ⟨hi, hm, hc⟩
      · exact Or.inl h'
      · exact Or.inr ⟨hi, hm, fun c hcm hci => a2 _ (hc c hcm hci)⟩
    · exact Or.inr h
  · intro x hx
    rcases d2 x hx with h | h
    · rcases d1 x h with h' | h'
      · exact Or.inl h'
      · exact Or.inr (fun hinc => by
          obtain ⟨v, hv, hvi⟩ := h' hinc
          exact ⟨v, b2 v hv, hvi⟩)
    · exact Or.inr h

theorem emitRelP_refl (nodes : List HPONode) (s) : emitRelP nodes s s :=
  ⟨fun _ h => h, fun _ h => h, fun _ h => Or.inl h, id⟩

theorem emitRelP_trans {nodes : List HPONode} {s t u}
    (h1 : emitRelP nodes s t) (h2 : emitRelP nodes t u) : emitRelP nodes s u := by
  obtain ⟨a1, b1, c1, e1⟩ := h1
  obtain ⟨a2, b2, c2, e2⟩ := h2
  refine ⟨fun x h => a2 x (a1 x h), fun v h => b2 v (b1 v h), ?_, fun h => e2 (e1 h)⟩
  intro v hv
  rcases c2 v hv with h | h
  · rcases c1 v h with h' | h'
    · exact Or.inl h'
    · exact Or.inr h'
  · exact Or.inr h

/-- Relation- and postcondition-propagation along an option-valued fold. -/
theorem foldlM_option_post {α σ : Type _} {g : σ → α → Option σ}
    {R : σ → σ → Prop} {Q : α → σ → Prop}
    (hrefl : ∀ s, R s s)
    (htrans : ∀ s t u, R s t → R t u → R s u)
    (hmono : ∀ a s s', Q a s → R s s' → Q a s') :
    ∀ {l : List α},
      (∀ a ∈ l, ∀ t t', g t a = some t' → R t t' ∧ Q a t') →
      ∀ {s s'}, l.foldlM g s = some s' → R s s' ∧ ∀ a ∈ l, Q a s' := by
  intro l
  induction l with
  | nil =>
    intro _ s s' h
    simp only [List.foldlM_nil] at h
    injection h with h
    exact ⟨h ▸ hrefl s, by simp⟩
  | cons a tl ih =>
    intro hstep s s' h
    simp only [List.foldlM_cons] at h
    rcases hga : g s a with _ | t
    · rw [hga] at h; cases h
    · rw [hga] at h
      simp only [Option.bind_eq_bind] at h
      obtain ⟨hR1, hQ1⟩ := hstep a (by simp) s t hga
      obtain ⟨hR2, hQ2⟩ := ih (fun b hb => hstep b (by simp [hb])) h
      refine ⟨htrans _ _ _ hR1 hR2, ?_⟩
      intro b hb
      rcases List.mem_cons.mp hb with rfl | hb'
      · exact hmono b _ _ hQ1 hR2
      · exact hQ2 b hb'

/-- Some-ness propagation along an option-valued fold, with a state
predicate `W` preserved by each step. -/
theorem foldlM_option_isSome {α σ : Type _} {g : σ → α → Option σ}
    {W : σ → Prop} :
    ∀ {l : List α},
      (∀ a ∈ l, ∀ s s', W s → g s a = some s' → W s') →
      (∀ a ∈ l, ∀ s, W s → (g s a).isSome) →
      ∀ {s}, W s → (l.foldlM g s).isSome := by
  intro l
  induction l with
  | nil => intro _ _ s _; simp
  | cons a tl ih =>
    intro hpres hsome s hW
    simp only [List.foldlM_cons]
    rcases hga : g s a with _ | t
    · have := hsome a (by simp) s hW
      rw [hga] at this
      cases this
    · simp only [Option.bind_eq_bind, Option.some_bind]
      exact ih (fun b hb => hpres b (by simp [hb]))
        (fun b hb => hsome b (by simp [hb])) (hpres a (by simp) s t hW hga)

end HPO

namespace HPO

theorem mem_nodesByParent {nodes : List HPONode} {key : Option String} {c : HPONode}
    (h : c ∈ nodesByParent nodes key) : c ∈ nodes ∧ c.parent_id = key := by
  obtain ⟨h1, h2⟩ := List.mem_filter.mp h
  exact ⟨h1, by simpa using h2⟩

theorem mem_nodesByParent_of {nodes : List HPONode} {key : Option String} {c : HPONode}
    (h1 : c ∈ nodes) (h2 : c.parent_id = key) : c ∈ nodesByParent nodes key :=
  List.mem_filter.mpr ⟨h1, by simpa using h2⟩

theorem addNodeAndChildren_spec (nodes : List HPONode) (included : String → Bool) :
    ∀ fuel node st st', node ∈ nodes →
      addNodeAndChildren nodes included fuel node st = some st' →
      emitRelS nodes included st st' ∧ node.id ∈ st'.2 := by
  intro fuel
  induction fuel with
  | zero => intro node st st' _ h; exact absurd h (by simp [addNodeAndChildren])
  | succ fuel ih =>
    intro node st st' hmem h
    obtain ⟨result, visited⟩ := st
    simp only [addNodeAndChildren] at h
    split at h
    · rename_i hvis
      injection h with h
      subst h
      exact ⟨emitRelS_refl _ _ _, hvis⟩
    · rename_i hvis
      split at h
      · rename_i hinc
        obtain ⟨hrel, hall⟩ := foldlM_option_post (R := emitRelS nodes included)
          (Q := fun (c : HPONode) s => c.id ∈ s.2)
          (emitRelS_refl nodes included)
          (fun _ _ _ h1 h2 => emitRelS_trans h1 h2)
          (fun a _ _ hq hr => hr.vmono a.id hq)
          (fun c hc t t' hg =>
            ih c t t' (mem_nodesByParent (List.mem_filter.mp hc).1).1 hg)
          h
        obtain ⟨m1, m2, m3, m4, m5⟩ := hrel
        refine ⟨⟨?_, ?_, ?_, ?_, ?_⟩, m1 node.id (by simp)⟩
        · intro x hx; exact m1 x (by simp [hx])
        · intro v hv; exact m2 v (by simp [hv])
        · intro v hv
          rcases m3 v hv with hv1 | hres
          · rcases List.mem_append.mp hv1 with h' | h'
            · exact Or.inl h'
            · rw [List.mem_singleton] at h'
              subst h'
              refine Or.inr ⟨hinc, hmem, ?_⟩
              intro c hcm hci
              exact hall c (List.mem_filter.mpr ⟨hcm, hci⟩)
          · exact Or.inr hres
        · intro x hx
          rcases m4 x hx with hx1 | hres
          · rcases List.mem_cons.mp hx1 with rfl | h'
            · exact Or.inr (fun _ => ⟨node, m2 node (by simp), rfl⟩)
            · exact Or.inl h'
          · exact Or.inr hres
        · intro hInv
          apply m5
          obtain ⟨hnodup, hsub⟩ := hInv
          constructor
          · rw [List.map_append]
            rw [List.nodup_append]
            refine ⟨hnodup, by simp, ?_⟩
            intro x hx hx'
            simp only [List.map_cons, List.map_nil, List.mem_singleton] at hx'
            subst hx'
            obtain ⟨v, hv, hvi⟩ := List.mem_map.mp hx
            exact hvis (hvi ▸ hsub v hv)
          · intro v hv
            rcases List.mem_append.mp hv with h' | h'
            · exact List.mem_cons_of_mem _ (hsub v h')
            · rw [List.mem_singleton] at h'
              subst h'
              simp
      · rename_i hinc
        injection h with h
        subst h
        refine ⟨⟨?_, ?_, ?_, ?_, ?_⟩, by simp⟩
        · intro x hx; simp [hx]
        · intro v hv; exact hv
        · intro v hv; exact Or.inl hv
        · intro x hx
          rcases List.mem_cons.mp hx with rfl | h'
          · exact Or.inr (fun hc => absurd hc (by simp [hinc]))
          · exact Or.inl h'
        · rintro ⟨hnodup, hsub⟩
          exact ⟨hnodup, fun v hv => List.mem_cons_of_mem _ (hsub v hv)⟩

theorem addNode_spec (nodes : List HPONode) (expandedNodes : List String) :
    ∀ fuel node st st', node ∈ nodes →
      (node.parent_id = none ∨ ∃ w ∈ nodes, node.parent_id = some w.id) →
      addNode nodes expandedNodes fuel node st = some st' →
      emitRelP nodes st st' := by
  intro fuel
  induction fuel with
  | zero => intro node st st' _ _ h; exact absurd h (by simp [addNode])
  | succ fuel ih =>
    intro node st st' hmem hpre h
    obtain ⟨result, visited⟩ := st
    simp only [addNode] at h
    split at h
    · injection h with h
      subst h
      exact emitRelP_refl _ _
    · rename_i hvis
      have hstep1 : emitRelP nodes (result, visited) (result ++ [node], node.id :: visited) := by
        refine ⟨?_, ?_, ?_, ?_⟩
        · intro x hx; simp [hx]
        · intro v hv; simp [hv]
        · intro v hv
          rcases List.mem_append.mp hv with h' | h'
          · exact Or.inl h'
          · rw [List.mem_singleton] at h'
            subst h'
            exact Or.inr ⟨hmem, hpre⟩
        · rintro ⟨hnodup, hsub⟩
          constructor
          · rw [List.map_append, List.nodup_append]
            refine ⟨hnodup, by simp, ?_⟩
            intro x hx hx'
            simp only [List.map_cons, List.map_nil, List.mem_singleton] at hx'
            subst hx'
            obtain ⟨v, hv, hvi⟩ := List.mem_map.mp hx
            exact hvis (hvi ▸ hsub v hv)
          · intro v hv
            rcases List.mem_append.mp hv with h' | h'
            · exact List.mem_cons_of_mem _ (hsub v h')
            · rw [List.mem_singleton] at h'
              subst h'
              simp
      split at h
      · obtain ⟨hrel, _⟩ := foldlM_option_post (R := emitRelP nodes)
          (Q := fun (_ : HPONode) _ => True)
          (emitRelP_refl nodes)
          (fun _ _ _ h1 h2 => emitRelP_trans h1 h2)
          (fun _ _ _ _ _ => trivial)
          (fun c hc t t' hg =>
            ⟨ih c t t' (mem_nodesByParent hc).1
              (Or.inr ⟨node, hmem, (mem_nodesByParent hc).2⟩) hg, trivial⟩)
          h
        exact emitRelP_trans hstep1 hrel
      · injection h with h
        subst h
        exact hstep1

end HPO

namespace HPO

theorem uvCount_mono (nodes : List HPONode) {v v' : List String}
    (h : ∀ x ∈ v, x ∈ v') : uvCount nodes v' ≤ uvCount nodes v := by
  unfold uvCount
  rw [← List.countP_eq_length_filter, ← List.countP_eq_length_filter]
  apply List.countP_mono_left
  intro a _ ha
  simp only [decide_eq_true_eq] at ha ⊢
  exact fun hav => ha (h a hav)

theorem uvCount_cons {nodes : List HPONode} {visited : List String} {a : String}
    (hmem : a ∈ nodes.map (fun n => n.id)) (hnv : a ∉ visited) :
    uvCount nodes (a :: visited) + 1 = uvCount nodes visited := by
  unfold uvCount
  have hfe : ((nodes.map (fun n => n.id)).dedup.filter (fun i => i ∉ a :: visited))
      = ((nodes.map (fun n => n.id)).dedup.filter (fun i => i ∉ visited)).filter
          (fun i => i != a) := by
    rw [List.filter_filter]
    apply List.filter_congr
    intro x _
    by_cases hx1 : x = a <;> by_cases hx2 : x ∈ visited <;>
      simp [List.mem_cons, hx1, hx2]
  rw [hfe]
  have hLnd : (((nodes.map (fun n => n.id)).dedup.filter
      (fun i => i ∉ visited))).Nodup :=
    (List.nodup_dedup _).filter _
  have haL : a ∈ (nodes.map (fun n => n.id)).dedup.filter (fun i => i ∉ visited) :=
    List.mem_filter.mpr ⟨List.mem_dedup.mpr hmem, by simpa using hnv⟩
  have herase := hLnd.erase_eq_filter a
  rw [← herase, List.length_erase_of_mem haL]
  have : 1 ≤ ((nodes.map (fun n => n.id)).dedup.filter (fun i => i ∉ visited)).length :=
    List.length_pos.mpr (List.ne_nil_of_mem haL)
  omega

theorem uvCount_le (nodes : List HPONode) (visited : List String) :
    uvCount nodes visited ≤ nodes.length := by
  unfold uvCount
  calc ((nodes.map (fun n => n.id)).dedup.filter (fun i => i ∉ visited)).length
      ≤ (nodes.map (fun n => n.id)).dedup.length := List.length_filter_le _ _
    _ ≤ (nodes.map (fun n => n.id)).length := (List.dedup_sublist _).length_le
    _ = nodes.length := List.length_map _ _

theorem addNodeAndChildren_isSome (nodes : List HPONode) (included : String → Bool) :
    ∀ fuel node st, node ∈ nodes → uvCount nodes st.2 < fuel →
      (addNodeAndChildren nodes included fuel node st).isSome := by
  intro fuel
  induction fuel with
  | zero => intro node st _ h; exact absurd h (Nat.not_lt_zero _)
  | succ fuel ih =>
    intro node st hmem hfuel
    obtain ⟨result, visited⟩ := st
    simp only [addNodeAndChildren]
    split
    · simp
    · rename_i hvis
      have hidm : node.id ∈ nodes.map (fun n => n.id) := List.mem_map.mpr ⟨node, hmem, rfl⟩
      have hcons := uvCount_cons hidm hvis
      split
      · apply foldlM_option_isSome (W := fun s : List HPONode × List String =>
          uvCount nodes s.2 < fuel)
        · intro a ha s s' hW hg
          have hrel := (addNodeAndChildren_spec nodes included fuel a s s'
            (mem_nodesByParent (List.mem_filter.mp ha).1).1 hg).1
          have := uvCount_mono nodes hrel.vmono
          omega
        · intro a ha s hW
          exact ih a s (mem_nodesByParent (List.mem_filter.mp ha).1).1 hW
        · show uvCount nodes (node.id :: visited) < fuel
          simp only [uvCount] at hfuel hcons ⊢
          omega
      · simp

theorem addNode_isSome (nodes : List HPONode) (expandedNodes : List String) :
    ∀ fuel node st, node ∈ nodes → uvCount nodes st.2 < fuel →
      (addNode nodes expandedNodes fuel node st).isSome := by
  intro fuel
  induction fuel with
  | zero => intro node st _ h; exact absurd h (Nat.not_lt_zero _)
  | succ fuel ih =>
    intro node st hmem hfuel
    obtain ⟨result, visited⟩ := st
    simp only [addNode]
    split
    · simp
    · rename_i hvis
      have hidm : node.id ∈ nodes.map (fun n => n.id) := List.mem_map.mpr ⟨node, hmem, rfl⟩
      have hcons := uvCount_cons hidm hvis
      split
      · rename_i hexp
        apply foldlM_option_isSome (W := fun s : List HPONode × List String =>
          uvCount nodes s.2 < fuel)
        · intro a ha s s' hW hg
          have hrel := addNode_spec nodes expandedNodes fuel a s s'
            (mem_nodesByParent ha).1
            (Or.inr ⟨node, hmem, (mem_nodesByParent ha).2⟩) hg
          have := uvCount_mono nodes hrel.vmono
          omega
        · intro a ha s hW
          exact ih a s (mem_nodesByParent ha).1 hW
        · show uvCount nodes (node.id :: visited) < fuel
          simp only [uvCount] at hfuel hcons ⊢
          omega
      · simp

end HPO

namespace HPO

theorem searchSets_isSome (nodes : List HPONode) (term : String) (fuel : Nat)
    (hchain : ∀ x ∈ nodes, chainToRoot nodes fuel x = true) :
    (searchSets nodes term fuel).isSome := by
  unfold searchSets
  apply foldlM_option_isSome (W := fun _ : List String × List String => True)
  · intro _ _ _ _ _ _; trivial
  · intro a ha s _
    dsimp only
    split
    · have hw := ancWalkAux_isSome (hchain a ha) s.2
      rcases h : ancWalkAux nodes fuel a s.2 with _ | anc
      · rw [h] at hw; cases hw
      · simp [h]
    · simp
  · trivial

theorem searchSets_fold_spec (nodes : List HPONode) (term : String) (fuel : Nat)
    (hnd : (nodes.map (fun n => n.id)).Nodup)
    (hchain : ∀ x ∈ nodes, chainToRoot nodes fuel x = true) :
    ∀ l : List HPONode, (∀ x ∈ l, x ∈ nodes) → ∀ sets sets',
      l.foldlM
        (fun (sets : List String × List String) node =>
          if matchesTerm (toLowerJS term) node then
            let m' := jsSetAdd sets.1 node.id
            (ancWalkAux nodes fuel node sets.2).map (fun anc => (m', anc))
          else some sets) sets = some sets' →
      (∀ i ∈ sets.1, i ∈ sets'.1) ∧ (∀ i ∈ sets.2, i ∈ sets'.2) ∧
      (∀ i ∈ sets'.1, i ∈ sets.1 ∨
          ∃ x ∈ l, matchesTerm (toLowerJS term) x = true ∧ x.id = i) ∧
      (∀ i ∈ sets'.2, i ∈ sets.2 ∨ nodesById nodes i = none ∨
          ∃ px x, x ∈ l ∧ matchesTerm (toLowerJS term) x = true ∧
            nodesById nodes i = some px ∧
            Relation.TransGen (AncStep nodes) px x) ∧
      (∀ x ∈ l, matchesTerm (toLowerJS term) x = true →
          x.id ∈ sets'.1 ∧
          ∀ q, Relation.TransGen (AncStep nodes) q x → q.id ∈ sets'.2) := by
  intro l
  induction l with
  | nil =>
    intro _ sets sets' h
    simp only [List.foldlM_nil] at h
    injection h with h
    subst h
    exact ⟨fun i hi => hi, fun i hi => hi, fun i hi => Or.inl hi, fun i hi => Or.inl hi,
      by simp⟩
  | cons a tl ih =>
    intro hl sets sets' h
    have ham : a ∈ nodes := hl a (by simp)
    simp only [List.foldlM_cons] at h
    by_cases hmatch : matchesTerm (toLowerJS term) a = true
    · rw [if_pos hmatch] at h
      rcases hw : ancWalkAux nodes fuel a sets.2 with _ | anc
      · rw [hw] at h; cases h
      · rw [hw] at h
        simp only [Option.map_some, Option.bind_eq_bind, Option.some_bind] at h
        obtain ⟨i1, i2, i3, i4, i5⟩ := ih (fun x hx => hl x (by simp [hx])) _ _ h
        have hsub2 : ∀ i ∈ sets.2, i ∈ anc := fun i hi => ancWalkAux_sub hw i hi
        have hsub1 : ∀ i ∈ sets.1, i ∈ jsSetAdd sets.1 a.id :=
          fun i hi => (mem_jsSetAdd _ _ _).mpr (Or.inl hi)
        refine ⟨fun i hi => i1 i (hsub1 i hi), fun i hi => i2 i (hsub2 i hi), ?_, ?_, ?_⟩
        · intro i hi
          rcases i3 i hi with h' | ⟨x, hx, hxm, hxi⟩
          · rcases (mem_jsSetAdd _ _ _).mp h' with h'' | rfl
            · exact Or.inl h''
            · exact Or.inr ⟨a, by simp, hmatch, rfl⟩
          · exact Or.inr ⟨x, by simp [hx], hxm, hxi⟩
        · intro i hi
          rcases i4 i hi with h' | h' | ⟨px, x, hx, hxm, hpx, hr⟩
          · rcases ancWalkAux_sound hw i h' with h'' | h'' | ⟨px, hpx, hr⟩
            · exact Or.inl h''
            · exact Or.inr (Or.inl h'')
            · exact Or.inr (Or.inr ⟨px, a, by simp, hmatch, hpx, hr⟩)
          · exact Or.inr (Or.inl h')
          · exact Or.inr (Or.inr ⟨px, x, by simp [hx], hxm, hpx, hr⟩)
        · intro x hx hxm
          rcases List.mem_cons.mp hx with rfl | hx'
          · refine ⟨i1 _ ((mem_jsSetAdd _ _ _).mpr (Or.inr rfl)), ?_⟩
            intro q hq
            exact i2 _ (ancWalkAux_complete hnd (hchain x ham) hw q hq)
          · exact i5 x hx' hxm
    · rw [if_neg hmatch] at h
      simp only [Option.bind_eq_bind, Option.some_bind] at h
      obtain ⟨i1, i2, i3, i4, i5⟩ := ih (fun x hx => hl x (by simp [hx])) _ _ h
      refine ⟨i1, i2, ?_, ?_, ?_⟩
      · intro i hi
        rcases i3 i hi with h' | ⟨x, hx, hxm, hxi⟩
        · exact Or.inl h'
        · exact Or.inr ⟨x, by simp [hx], hxm, hxi⟩
      · intro i hi
        rcases i4 i hi with h' | h' | ⟨px, x, hx, hxm, hpx, hr⟩
        · exact Or.inl h'
        · exact Or.inr (Or.inl h')
        · exact Or.inr (Or.inr ⟨px, x, by simp [hx], hxm, hpx, hr⟩)
      · intro x hx hxm
        rcases List.mem_cons.mp hx with rfl | hx'
        · exact absurd hxm hmatch
        · exact i5 x hx' hxm

end HPO

namespace HPO

theorem visibleNodes_search_spec (nodes : List HPONode) (expandedNodes : List String)
    (term : String)
    (hnd : (nodes.map (fun n => n.id)).Nodup)
    (hwf : wellFormedChains nodes = true)
    (hterm : term ≠ "") :
    ∃ l, visibleNodesDefault nodes expandedNodes term = some l ∧
      (∀ x ∈ nodes, (∃ mt ∈ nodes, matchesTerm (toLowerJS term) mt = true ∧
          Relation.TransGen (AncStep nodes) x mt) → x ∈ l) ∧
      (∀ x ∈ l, matchesTerm (toLowerJS term) x = true ∨
          ∃ mt ∈ nodes, matchesTerm (toLowerJS term) mt = true ∧
            Relation.TransGen (AncStep nodes) x mt) := by
  have hchain : ∀ x ∈ nodes, chainToRoot nodes (nodes.length + 1) x = true := by
    intro x hx
    exact List.all_eq_true.mp hwf x hx
  -- the match-and-ancestor phase completes
  have hssome := searchSets_isSome nodes term (nodes.length + 1) hchain
  rcases hsets : searchSets nodes term (nodes.length + 1) with _ | sets
  · rw [hsets] at hssome; cases hssome
  -- characterize the two id sets
  have hsets' := hsets
  unfold searchSets at hsets'
  obtain ⟨_, _, s3, s4, s5⟩ :=
    searchSets_fold_spec nodes term (nodes.length + 1) hnd hchain nodes
      (fun x hx => hx) ([], []) sets hsets'
  -- the emission phase completes
  have hfsome : (((nodesByParent nodes none).foldlM
      (fun st r => addNodeAndChildren nodes (includedIn sets) (nodes.length + 1) r st)
      (([], []) : List HPONode × List String))).isSome := by
    apply foldlM_option_isSome (W := fun s : List HPONode × List String =>
      uvCount nodes s.2 < nodes.length + 1)
    · intro a ha s s' hW hg
      have hrel := (addNodeAndChildren_spec nodes (includedIn sets) _ a s s'
        (mem_nodesByParent ha).1 hg).1
      have := uvCount_mono nodes hrel.vmono
      omega
    · intro a ha s hW
      exact addNodeAndChildren_isSome nodes (includedIn sets) _ a s
        (mem_nodesByParent ha).1 hW
    · show uvCount nodes [] < nodes.length + 1
      have := uvCount_le nodes []
      omega
  rcases hfold : ((nodesByParent nodes none).foldlM
      (fun st r => addNodeAndChildren nodes (includedIn sets) (nodes.length + 1) r st)
      (([], []) : List HPONode × List String)) with _ | st'
  · rw [hfold] at hfsome; cases hfsome
  -- the emission state relation and per-root postcondition
  obtain ⟨hrel, hall⟩ := foldlM_option_post (R := emitRelS nodes (includedIn sets))
    (Q := fun (r : HPONode) s => r.id ∈ s.2)
    (emitRelS_refl nodes (includedIn sets))
    (fun _ _ _ h1 h2 => emitRelS_trans h1 h2)
    (fun a _ _ hq hr => hr.vmono a.id hq)
    (fun r hr t t' hg =>
      addNodeAndChildren_spec nodes (includedIn sets) _ r t t'
        (mem_nodesByParent hr).1 hg)
    hfold
  -- the produced list
  refine ⟨st'.1, ?_, ?_, ?_⟩
  · rw [visibleNodesDefault, visibleNodes, if_pos hterm, hsets]
    simp [hfold]
  · -- completeness: every proper ancestor of a match is emitted
    have hemit : ∀ cf (y : HPONode), chainToRoot nodes cf y = true → y ∈ nodes →
        includedIn sets y.id = true →
        (∀ z ∈ nodes, Relation.TransGen (AncStep nodes) z y →
          includedIn sets z.id = true) →
        y ∈ st'.1 := by
      intro cf
      induction cf with
      | zero => intro y hc; exact absurd hc (by simp [chainToRoot])
      | succ cf ihc =>
        intro y hc hym hyinc hup
        simp only [chainToRoot] at hc
        have hyq : y.id ∈ st'.2 → y ∈ st'.1 := by
          intro hyvis
          rcases hrel.vemit y.id hyvis with h0 | hf
          · cases h0
          · obtain ⟨v, hv, hvi⟩ := hf hyinc
            have hvm : v ∈ nodes := by
              rcases hrel.rsound v hv with h0 | ⟨_, hm, _⟩
              · cases h0
              · exact hm
            rwa [eq_of_mem_of_id_eq hnd hvm hym hvi] at hv
        split at hc
        · rename_i hpid
          exact hyq (hall y (mem_nodesByParent_of hym hpid))
        · rename_i pid hpid
          split at hc
          · cases hc
          · rename_i hempty
            split at hc
            · cases hc
            · rename_i p hby
              obtain ⟨hpm, hpi⟩ := nodesById_eq_some hby
              have hstep : AncStep nodes p y := ⟨hpm, by rw [hpid, hpi]⟩
              have hpinc := hup p hpm (Relation.TransGen.single hstep)
              have hpup : ∀ z ∈ nodes, Relation.TransGen (AncStep nodes) z p →
                  includedIn sets z.id = true :=
                fun z hz hr => hup z hz (Relation.TransGen.tail hr hstep)
              have hpemit := ihc p hc hpm hpinc hpup
              rcases hrel.rsound p hpemit with h0 | ⟨_, _, hchildren⟩
              · cases h0
              · apply hyq
                apply hchildren y (mem_nodesByParent_of hym (by rw [hpid, hpi])) hyinc
    intro x hx ⟨mt, hmtm, hmtmatch, hanc⟩
    have hxinc : includedIn sets x.id = true := by
      have := (s5 mt hmtm hmtmatch).2 x hanc
      simp [includedIn, this]
    have hxup : ∀ z ∈ nodes, Relation.TransGen (AncStep nodes) z x →
        includedIn sets z.id = true := by
      intro z hz hr
      have := (s5 mt hmtm hmtmatch).2 z (Relation.TransGen.trans hr hanc)
      simp [includedIn, this]
    exact hemit (nodes.length + 1) x (hchain x hx) hx hxinc hxup
  · -- soundness: everything emitted is a match or a proper ancestor of one
    intro x hx
    rcases hrel.rsound x hx with h0 | ⟨hinc, hxm, _⟩
    · cases h0
    · have : x.id ∈ sets.1 ∨ x.id ∈ sets.2 := by
        simpa [includedIn] using hinc
      rcases this with h1 | h2
      · rcases s3 x.id h1 with h0 | ⟨mt, hmtm, hmtmatch, hmti⟩
        · cases h0
        · left
          rwa [eq_of_mem_of_id_eq hnd hmtm hxm hmti] at hmtmatch
      · rcases s4 x.id h2 with h0 | hbad | ⟨px, mt, hmtm, hmtmatch, hpx, hr⟩
        · cases h0
        · exact absurd (nodesById_of_mem hnd hxm) (by rw [hbad]; simp)
        · right
          refine ⟨mt, hmtm, hmtmatch, ?_⟩
          have : px = x := by
            obtain ⟨hpxm, hpxi⟩ := nodesById_eq_some hpx
            exact eq_of_mem_of_id_eq hnd hpxm hxm hpxi
          rwa [this] at hr

end HPO

namespace HPO

theorem visibleNodes_ids_nodup_subset (nodes : List HPONode) (expandedNodes : List String)
    (term : String) (fuel : Nat) (l : List HPONode)
    (h : visibleNodes nodes expandedNodes term fuel = some l) :
    (l.map (fun v => v.id)).Nodup ∧ ∀ x ∈ l, x ∈ nodes := by
  unfold visibleNodes at h
  split at h
  · -- search mode
    rcases hsets : searchSets nodes term fuel with _ | sets
    · rw [hsets] at h; cases h
    · rw [hsets] at h
      simp only [Option.bind_eq_bind, Option.some_bind] at h
      rcases hfold : ((nodesByParent nodes none).foldlM
          (fun st r => addNodeAndChildren nodes (includedIn sets) fuel r st)
          (([], []) : List HPONode × List String)) with _ | st'
      · rw [hfold] at h; cases h
      · rw [hfold] at h
        simp only [Option.map_some'] at h
        injection h with h
        subst h
        obtain ⟨hrel, _⟩ := foldlM_option_post (R := emitRelS nodes (includedIn sets))
          (Q := fun (_ : HPONode) _ => True)
          (emitRelS_refl nodes (includedIn sets))
          (fun _ _ _ h1 h2 => emitRelS_trans h1 h2)
          (fun _ _ _ _ _ => trivial)
          (fun r hr t t' hg =>
            ⟨(addNodeAndChildren_spec nodes (includedIn sets) _ r t t'
              (mem_nodesByParent hr).1 hg).1, trivial⟩)
          hfold
        have hInv := hrel.inv ⟨by simp, by simp⟩
        refine ⟨hInv.1, ?_⟩
        intro x hx
        rcases hrel.rsound x hx with h0 | ⟨_, hm, _⟩
        · cases h0
        · exact hm
  · -- plain mode
    rcases hfold : ((nodesByParent nodes none).foldlM
        (fun st r => addNode nodes expandedNodes fuel r st)
        (([], []) : List HPONode × List String)) with _ | st'
    · rw [hfold] at h; cases h
    · rw [hfold] at h
      simp only [Option.map_some'] at h
      injection h with h
      subst h
      obtain ⟨hrel, _⟩ := foldlM_option_post (R := emitRelP nodes)
        (Q := fun (_ : HPONode) _ => True)
        (emitRelP_refl nodes)
        (fun _ _ _ h1 h2 => emitRelP_trans h1 h2)
        (fun _ _ _ _ _ => trivial)
        (fun r hr t t' hg =>
          ⟨addNode_spec nodes expandedNodes _ r t t' (mem_nodesByParent hr).1
            (Or.inl (mem_nodesByParent hr).2) hg, trivial⟩)
        hfold
      have hInv := hrel.inv ⟨by simp, by simp⟩
      refine ⟨hInv.1, ?_⟩
      intro x hx
      rcases hrel.rsound x hx with h0 | ⟨hm, _⟩
      · cases h0
      · exact hm

theorem orphan_behavior (nodes : List HPONode) (expandedNodes : List String)
    (n : HPONode) (p : String)
    (hn : n ∈ nodes) (hp : n.parent_id = some p)
    (habsent : ∀ m ∈ nodes, m.id ≠ p) :
    n ∈ nodesByParent nodes (some p) ∧
    n ∉ nodesByParent nodes none ∧
    (∀ fuel l, visibleNodes nodes expandedNodes "" fuel = some l → n ∉ l) ∧
    n ∈ rootNodesV3 nodes := by
  refine ⟨mem_nodesByParent_of hn hp, ?_, ?_, ?_⟩
  · intro hmem
    have := (mem_nodesByParent hmem).2
    rw [hp] at this
    cases this
  · intro fuel l h hnl
    unfold visibleNodes at h
    rw [if_neg (by simp)] at h
    rcases hfold : ((nodesByParent nodes none).foldlM
        (fun st r => addNode nodes expandedNodes fuel r st)
        (([], []) : List HPONode × List String)) with _ | st'
    · rw [hfold] at h; cases h
    · rw [hfold] at h
      simp only [Option.map_some'] at h
      injection h with h
      subst h
      obtain ⟨hrel, _⟩ := foldlM_option_post (R := emitRelP nodes)
        (Q := fun (_ : HPONode) _ => True)
        (emitRelP_refl nodes)
        (fun _ _ _ h1 h2 => emitRelP_trans h1 h2)
        (fun _ _ _ _ _ => trivial)
        (fun r hr t t' hg =>
          ⟨addNode_spec nodes expandedNodes _ r t t' (mem_nodesByParent hr).1
            (Or.inl (mem_nodesByParent hr).2) hg, trivial⟩)
        hfold
      rcases hrel.rsound n hnl with h0 | ⟨_, hcase⟩
      · cases h0
      · rcases hcase with hnone | ⟨w, hw, hwp⟩
        · rw [hp] at hnone; cases hnone
        · rw [hp] at hwp
          injection hwp with hwp
          exact habsent w hw hwp.symm
  · unfold rootNodesV3
    apply List.mem_filter.mpr
    refine ⟨hn, ?_⟩
    simp only [hp]
    by_cases hpe : p = ""
    · simp [hpe]
    · rw [if_neg hpe]
      simp only [Bool.not_eq_true']
      rw [List.any_eq_false]
      intro m hm
      simpa using habsent m hm

theorem ancWalk_cycle_diverges :
    ∀ fuel (acc : List String),
      ancWalkAux cycNodes fuel cycA acc = none ∧
      ancWalkAux cycNodes fuel cycB acc = none := by
  intro fuel
  induction fuel with
  | zero => intro acc; exact ⟨rfl, rfl⟩
  | succ fuel ih =>
    intro acc
    constructor
    · have h1 : cycA.parent_id = some "b1" := rfl
      simp only [ancWalkAux, h1]
      rw [if_neg (by decide)]
      have h2 : nodesById cycNodes "b1" = some cycB := by decide
      simp only [h2]
      exact (ih _).2
    · have h1 : cycB.parent_id = some "a1" := rfl
      simp only [ancWalkAux, h1]
      rw [if_neg (by decide)]
      have h2 : nodesById cycNodes "a1" = some cycA := by decide
      simp only [h2]
      exact (ih _).1

theorem visibleNodes_cycle_diverges :
    ∀ fuel, visibleNodes cycNodes [] "cyc" fuel = none := by
  intro fuel
  have hss : searchSets cycNodes "cyc" fuel = none := by
    unfold searchSets
    rw [show cycNodes = [cycA, cycB] from rfl, List.foldlM_cons, if_pos (by decide)]
    simp [show ancWalkAux [cycA, cycB] fuel cycA [] = none from
      (ancWalk_cycle_diverges fuel []).1]
  rw [visibleNodes, if_pos (by decide), hss]
  rfl

end HPO

namespace HPO


/-- Descending the cited-fuel witness: a proper ancestor of a chain-resolving
node resolves with strictly less fuel. -/
theorem chainToRoot_of_anc {nodes : List HPONode}
    (hnd : (nodes.map (fun n => n.id)).Nodup) :
    ∀ fuel (n : HPONode), chainToRoot nodes fuel n = true →
      ∀ a, Relation.TransGen (AncStep nodes) a n →
        ∃ f, f < fuel ∧ chainToRoot nodes f a = true := by
  intro fuel
  induction fuel with
  | zero => intro n hc; exact absurd hc (by simp [chainToRoot])
  | succ fuel ih =>
    intro n hc a ha
    simp only [chainToRoot] at hc
    split at hc
    · rename_i hpid
      exfalso
      rcases (Relation.transGen_iff _ _ _).mp ha with hstep | ⟨c, _, hstep⟩ <;>
        · obtain ⟨_, hpar⟩ := hstep
          rw [hpid] at hpar
          cases hpar
    · rename_i pid hpid
      split at hc
      · cases hc
      · rename_i hempty
        split at hc
        · cases hc
        · rename_i p hby
          obtain ⟨hpm, hpi⟩ := nodesById_eq_some hby
          have huniq : ∀ q, AncStep nodes q n → q = p := by
            rintro q ⟨hqm, hqp⟩
            rw [hpid] at hqp
            injection hqp with hqp
            exact eq_of_mem_of_id_eq hnd hqm hpm (by rw [hpi, ← hqp])
          rcases (Relation.transGen_iff _ _ _).mp ha with hstep | ⟨c, hr, hstep⟩
          · rw [huniq a hstep]
            exact ⟨fuel, Nat.lt_succ_self _, hc⟩
          · rw [huniq c hstep] at hr
            obtain ⟨f, hf, hcf⟩ := ih p hc a hr
            exact ⟨f, Nat.lt_succ_of_lt hf, hcf⟩

/-- A node whose parent chain resolves to a root is not its own proper
ancestor. -/
theorem not_self_ancestor {nodes : List HPONode}
    (hnd : (nodes.map (fun n => n.id)).Nodup) :
    ∀ fuel (n : HPONode), chainToRoot nodes fuel n = true →
      ¬ Relation.TransGen (AncStep nodes) n n := by
  intro fuel
  induction fuel using Nat.strong_induction_on with
  | _ fuel ih =>
    intro n hc hcyc
    obtain ⟨f, hf, hcf⟩ := chainToRoot_of_anc hnd fuel n hc n hcyc
    exact ih f hf n hcf hcyc

theorem descStep_exists {nodes : List HPONode} {a y : String}
    (h : DescStep nodes a y) :
    ∃ c ∈ nodes, c.parent_id = some a ∧ c.id = y := by
  unfold DescStep childIds at h
  obtain ⟨c, hc, rfl⟩ := List.mem_map.mp h
  exact ⟨c, (mem_nodesByParent hc).1, (mem_nodesByParent hc).2, rfl⟩

theorem transGen_descStep_target {nodes : List HPONode} {a y : String}
    (h : Relation.TransGen (DescStep nodes) a y) :
    ∃ c ∈ nodes, c.id = y := by
  rcases (Relation.transGen_iff _ _ _).mp h with hstep | ⟨m, _, hstep⟩ <;>
    · obtain ⟨c, hcm, _, hci⟩ := descStep_exists hstep
      exact ⟨c, hcm, hci⟩

/-- A chain through the children relation on ids inverts into a chain through
the parent relation on the (unique) records carrying those ids. -/
theorem transGen_desc_to_anc {nodes : List HPONode}
    (hnd : (nodes.map (fun n => n.id)).Nodup) :
    ∀ {a y : String}, Relation.TransGen (DescStep nodes) a y →
      ∀ ny, ny ∈ nodes → ny.id = y → ∀ na, na ∈ nodes → na.id = a →
        Relation.TransGen (AncStep nodes) na ny := by
  intro a y h
  induction h with
  | single hstep =>
    intro ny hnym hnyi na hnam hnai
    obtain ⟨c, hcm, hcp, hci⟩ := descStep_exists hstep
    have hny : ny = c := eq_of_mem_of_id_eq hnd hnym hcm (by rw [hnyi, hci])
    subst hny
    exact Relation.TransGen.single ⟨hnam, by rw [hcp, hnai]⟩
  | tail hr hstep ih =>
    intro ny hnym hnyi na hnam hnai
    obtain ⟨c, hcm, hcp, hci⟩ := descStep_exists hstep
    obtain ⟨nm, hnmm, hnmi⟩ := transGen_descStep_target hr
    have hny : ny = c := eq_of_mem_of_id_eq hnd hnym hcm (by rw [hnyi, hci])
    subst hny
    exact Relation.TransGen.tail (ih nm hnmm hnmi na hnam hnai)
      ⟨hnmm, by rw [hcp, hnmi]⟩

/-- On a well-formed record set no node is its own proper descendant. -/
theorem not_self_desc {nodes : List HPONode}
    (hnd : (nodes.map (fun n => n.id)).Nodup)
    (hwf : wellFormedChains nodes = true) {n : HPONode} (hn : n ∈ nodes) :
    ¬ Relation.TransGen (DescStep nodes) n.id n.id := by
  intro h
  exact not_self_ancestor hnd (nodes.length + 1) n
    (List.all_eq_true.mp hwf n hn)
    (transGen_desc_to_anc hnd h n hn rfl n hn rfl)

/-- On a well-formed record set the children array `part_003` attaches to a
record coincides with the flat index's `childrenOf` bucket for its id. -/
theorem childrenV3_eq {nodes : List HPONode}
    (hnd : (nodes.map (fun n => n.id)).Nodup)
    (hwf : wellFormedChains nodes = true) {n : HPONode} (hn : n ∈ nodes) :
    childrenV3 nodes n = nodesByParent nodes (some n.id) := by
  unfold childrenV3 nodesByParent
  apply List.filter_congr
  intro c hc
  rcases hpid : c.parent_id with _ | pid
  · simp [hpid]
  · simp only [hpid]
    by_cases hempty : pid = ""
    · exfalso
      have hcwf := List.all_eq_true.mp hwf c hc
      simp [chainToRoot, hpid, hempty] at hcwf
    · rw [if_neg hempty]
      by_cases heq : pid = n.id
      · subst heq
        rw [nodesById_of_mem hnd hn]
        simp
      · rcases hby : nodesById nodes pid with _ | m
        · simp [heq]
        · have hmi := (nodesById_eq_some hby).2
          have hne : ¬ (m = n) := fun he => heq (by rw [← hmi, he])
          simp [hne, heq]



theorem childrenV3_subset {nodes : List HPONode} {n c : HPONode}
    (h : c ∈ childrenV3 nodes n) : c ∈ nodes :=
  List.mem_of_mem_filter h

theorem childrenV3_ids_nodup {nodes : List HPONode}
    (hnd : (nodes.map (fun n => n.id)).Nodup) (n : HPONode) :
    ((childrenV3 nodes n).map (fun c => c.id)).Nodup :=
  ((List.filter_sublist nodes).map (fun c => c.id)).nodup hnd

theorem childrenV3_length_le (nodes : List HPONode) (n : HPONode) :
    (childrenV3 nodes n).length ≤ nodes.length :=
  List.length_filter_le _ _

theorem getDescendantIdsAux_spec {nodes : List HPONode}
    (hnd : (nodes.map (fun n => n.id)).Nodup)
    (hwf : wellFormedChains nodes = true)
    {n : HPONode} (hn : n ∈ nodes) :
    ∀ fuel queue acc,
      (nodes.length - acc.length) * (nodes.length + 1) + queue.length ≤ fuel →
      (∀ c ∈ queue, c ∈ nodes) →
      (acc ++ queue.map (fun c => c.id)).Nodup →
      (∀ x ∈ acc ++ queue.map (fun c => c.id),
        Relation.TransGen (DescStep nodes) n.id x) →
      (∀ d ∈ nodes, (d.id ∈ acc ++ queue.map (fun c => c.id)) ↔
        (∃ pid, d.parent_id = some pid ∧ (pid = n.id ∨ pid ∈ acc))) →
      ∃ res, getDescendantIdsAux nodes fuel queue acc = some res ∧
        (∀ x ∈ res, Relation.TransGen (DescStep nodes) n.id x) ∧
        (∀ d ∈ nodes, (∃ pid, d.parent_id = some pid ∧ (pid = n.id ∨ pid ∈ res)) →
          d.id ∈ res) := by
  intro fuel
  induction fuel with
  | zero =>
    intro queue acc hfuel hq hK1 hK3 hK2
    cases queue with
    | nil =>
      refine ⟨acc, rfl, fun x hx => hK3 x (by simpa using hx), ?_⟩
      intro d hd hpar
      have := (hK2 d hd).mpr hpar
      simpa using this
    | cons c rest =>
      exfalso
      simp only [List.length_cons] at hfuel
      omega
  | succ fuel ih =>
    intro queue acc hfuel hq hK1 hK3 hK2
    cases queue with
    | nil =>
      refine ⟨acc, rfl, fun x hx => hK3 x (by simpa using hx), ?_⟩
      intro d hd hpar
      have := (hK2 d hd).mpr hpar
      simpa using this
    | cons c rest =>
      have hcm : c ∈ nodes := hq c (by simp)
      have hchEq : childrenV3 nodes c = nodesByParent nodes (some c.id) :=
        childrenV3_eq hnd hwf hcm
      -- the head's id is fresh w.r.t. acc and distinct from the start node
      have hsplit : acc ++ (c :: rest).map (fun c => c.id)
          = (acc ++ [c.id]) ++ rest.map (fun c => c.id) := by
        simp
      have hK1' := hK1
      rw [hsplit] at hK1'
      obtain ⟨hnd1, hnd2, hdisj⟩ := List.nodup_append.mp hK1'
      have hcid_acc : c.id ∉ acc := by
        intro hin
        have : (acc ++ [c.id]).Nodup := hnd1
        rw [List.nodup_append] at this
        exact this.2.2 hin (by simp)
      have hcid_desc : Relation.TransGen (DescStep nodes) n.id c.id :=
        hK3 c.id (by simp)
      have hcid_ne : c.id ≠ n.id := by
        intro he
        rw [he] at hcid_desc
        exact not_self_desc hnd hwf hn hcid_desc
      -- children of the head are disjoint from everything seen so far
      have hfresh : ∀ ch ∈ childrenV3 nodes c,
          ch.id ∉ acc ++ (c :: rest).map (fun c => c.id) := by
        intro ch hch hin
        have hchm : ch ∈ nodes := childrenV3_subset hch
        have hchp : ch.parent_id = some c.id := by
          rw [hchEq] at hch
          exact (mem_nodesByParent hch).2
        obtain ⟨pid, hpp, hor⟩ := (hK2 ch hchm).mp hin
        rw [hchp] at hpp
        injection hpp with hpp
        rcases hor with h' | h'
        · exact hcid_ne (by rw [hpp, h'])
        · exact hcid_acc (hpp ▸ h')
      -- invariants for the recursive call
      have hq' : ∀ x ∈ rest ++ childrenV3 nodes c, x ∈ nodes := by
        intro x hx
        rcases List.mem_append.mp hx with h' | h'
        · exact hq x (by simp [h'])
        · exact childrenV3_subset h'
      have hK1new : ((acc ++ [c.id]) ++
          (rest ++ childrenV3 nodes c).map (fun c => c.id)).Nodup := by
        rw [List.map_append, ← List.append_assoc, List.nodup_append]
        refine ⟨by rw [← hsplit]; exact hK1, childrenV3_ids_nodup hnd c, ?_⟩
        rw [List.disjoint_right]
        intro x hx
        obtain ⟨ch, hch, rfl⟩ := List.mem_map.mp hx
        intro hin
        apply hfresh ch hch
        rw [hsplit]
        exact hin
      have hK3new : ∀ x ∈ (acc ++ [c.id]) ++
          (rest ++ childrenV3 nodes c).map (fun c => c.id),
          Relation.TransGen (DescStep nodes) n.id x := by
        intro x hx
        rw [List.map_append, ← List.append_assoc] at hx
        rcases List.mem_append.mp hx with h' | h'
        · exact hK3 x (by rw [hsplit]; exact h')
        · obtain ⟨ch, hch, rfl⟩ := List.mem_map.mp h'
          have hchp : ch.parent_id = some c.id := by
            rw [hchEq] at hch
            exact (mem_nodesByParent hch).2
          refine Relation.TransGen.tail hcid_desc ?_
          unfold DescStep childIds
          exact List.mem_map.mpr ⟨ch, by rw [hchEq] at hch; exact hch, rfl⟩
      have hK2new : ∀ d ∈ nodes, (d.id ∈ (acc ++ [c.id]) ++
          (rest ++ childrenV3 nodes c).map (fun c => c.id)) ↔
          (∃ pid, d.parent_id = some pid ∧ (pid = n.id ∨ pid ∈ acc ++ [c.id])) := by
        intro d hd
        rw [List.map_append, ← List.append_assoc]
        constructor
        · intro hin
          rcases List.mem_append.mp hin with h' | h'
          · obtain ⟨pid, hpp, hor⟩ := (hK2 d hd).mp (by rw [hsplit]; exact h')
            exact ⟨pid, hpp, hor.imp id (fun h => by simp [h])⟩
          · obtain ⟨ch, hch, hchi⟩ := List.mem_map.mp h'
            have hchm : ch ∈ nodes := childrenV3_subset hch
            have hde : d = ch := eq_of_mem_of_id_eq hnd hd hchm hchi.symm
            subst hde
            have hchp : d.parent_id = some c.id := by
              rw [hchEq] at hch
              exact (mem_nodesByParent hch).2
            exact ⟨c.id, hchp, Or.inr (by simp)⟩
        · rintro ⟨pid, hpp, hor⟩
          rcases hor with h' | h'
          · apply List.mem_append.mpr (Or.inl ?_)
            rw [← hsplit]
            exact (hK2 d hd).mpr ⟨pid, hpp, Or.inl h'⟩
          · rcases List.mem_append.mp h' with h'' | h''
            · apply List.mem_append.mpr (Or.inl ?_)
              rw [← hsplit]
              exact (hK2 d hd).mpr ⟨pid, hpp, Or.inr h''⟩
            · rw [List.mem_singleton] at h''
              subst h''
              apply List.mem_append.mpr (Or.inr ?_)
              apply List.mem_map.mpr
              refine ⟨d, ?_, rfl⟩
              rw [hchEq]
              exact mem_nodesByParent_of hd hpp
      -- the measure decreases
      have hacc_sub : ∀ x ∈ acc ++ [c.id], x ∈ nodes.map (fun n => n.id) := by
        intro x hx
        have hr : Relation.TransGen (DescStep nodes) n.id x := by
          rcases List.mem_append.mp hx with h' | h'
          · exact hK3 x (by simp [h'])
          · rw [List.mem_singleton] at h'
            subst h'
            exact hcid_desc
        obtain ⟨d, hdm, hdi⟩ := transGen_descStep_target hr
        exact List.mem_map.mpr ⟨d, hdm, hdi⟩
      have hacc_len : acc.length + 1 ≤ nodes.length := by
        have := (hnd1.subperm hacc_sub).length_le
        simpa using this
      have hfuel' : (nodes.length - (acc ++ [c.id]).length) * (nodes.length + 1) +
          (rest ++ childrenV3 nodes c).length ≤ fuel := by
        rw [List.length_append, List.length_append]
        simp only [List.length_cons, List.length_nil, zero_add] at hfuel ⊢
        have hchlen := childrenV3_length_le nodes c
        have hstep : (nodes.length - acc.length)
            = (nodes.length - (acc.length + 1)) + 1 := by omega
        rw [hstep, add_mul, one_mul] at hfuel
        set P := (nodes.length - (acc.length + 1)) * (nodes.length + 1) with hP
        omega
      obtain ⟨res, heq, hsound, hclosed⟩ :=
        ih (rest ++ childrenV3 nodes c) (acc ++ [c.id]) hfuel' hq' hK1new hK3new hK2new
      exact ⟨res, heq, hsound, hclosed⟩

/-- `part_003`'s `getDescendantIds` on a well-formed record set: it returns,
and the result holds exactly the ids reachable from the node through the
children relation, never the node's own id. -/
theorem getDescendantIds_spec {nodes : List HPONode}
    (hnd : (nodes.map (fun n => n.id)).Nodup)
    (hwf : wellFormedChains nodes = true)
    {n : HPONode} (hn : n ∈ nodes) :
    ∃ res, getDescendantIds nodes n = some res ∧
      (∀ x, x ∈ res ↔ Relation.TransGen (DescStep nodes) n.id x) ∧
      n.id ∉ res := by
  have hchEq : childrenV3 nodes n = nodesByParent nodes (some n.id) :=
    childrenV3_eq hnd hwf hn
  have hμ : (nodes.length - ([] : List String).length) * (nodes.length + 1) +
      (childrenV3 nodes n).length ≤ descFuel nodes := by
    have hchlen := childrenV3_length_le nodes n
    unfold descFuel
    simp only [List.length_nil, Nat.sub_zero]
    have hring : (nodes.length + 1) * (nodes.length + 2)
        = nodes.length * (nodes.length + 1) + 2 * nodes.length + 2 := by ring
    set P := nodes.length * (nodes.length + 1) with hP
    omega
  obtain ⟨res, heq, hsound, hclosed⟩ :=
    getDescendantIdsAux_spec hnd hwf hn (descFuel nodes) (childrenV3 nodes n) []
      hμ (fun c hc => childrenV3_subset hc)
      (by simpa using childrenV3_ids_nodup hnd n)
      (by
        intro x hx
        simp only [List.nil_append] at hx
        obtain ⟨ch, hch, rfl⟩ := List.mem_map.mp hx
        apply Relation.TransGen.single
        unfold DescStep childIds
        exact List.mem_map.mpr ⟨ch, by rw [hchEq] at hch; exact hch, rfl⟩)
      (by
        intro d hd
        simp only [List.nil_append]
        constructor
        · intro hin
          obtain ⟨ch, hch, hchi⟩ := List.mem_map.mp hin
          have hde : d = ch := eq_of_mem_of_id_eq hnd hd (childrenV3_subset hch) hchi.symm
          subst hde
          have hchp : d.parent_id = some n.id := by
            rw [hchEq] at hch
            exact (mem_nodesByParent hch).2
          exact ⟨n.id, hchp, Or.inl rfl⟩
        · rintro ⟨pid, hpp, hor⟩
          rcases hor with h' | h'
          · subst h'
            apply List.mem_map.mpr
            refine ⟨d, ?_, rfl⟩
            rw [hchEq]
            exact mem_nodesByParent_of hd hpp
          · cases h')
  refine ⟨res, heq, ?_, ?_⟩
  · intro x
    constructor
    · exact hsound x
    · intro hr
      induction hr with
      | single hstep =>
        obtain ⟨d, hdm, hdp, hdi⟩ := descStep_exists hstep
        rw [← hdi]
        exact hclosed d hdm ⟨n.id, hdp, Or.inl rfl⟩
      | tail hr2 hstep ih2 =>
        obtain ⟨d, hdm, hdp, hdi⟩ := descStep_exists hstep
        rw [← hdi]
        exact hclosed d hdm ⟨_, hdp, Or.inr ih2⟩
  · intro hni
    exact not_self_desc hnd hwf hn (hsound n.id hni)



/-- The counting test shared by both `isNodePartiallySelected` copies, read
as a proposition about the underlying descendant list. -/
theorem partial_count_iff (D sel : List String) :
    ((D.filter (fun i => i ∈ sel)).length > 0 &&
      (D.filter (fun i => i ∈ sel)).length < D.length) = true ↔
    ((∃ d ∈ D, d ∈ sel) ∧ ¬ (∀ d ∈ D, d ∈ sel)) := by
  have hlen : (D.filter (fun x => x ∈ sel)).length = D.countP (fun x => x ∈ sel) :=
    (List.countP_eq_length_filter _ D).symm
  have hpos : (0 < D.countP (fun x => x ∈ sel)) ↔ ∃ d ∈ D, d ∈ sel := by
    rw [List.countP_pos_iff]; simp
  have hall : (D.countP (fun x => x ∈ sel) = D.length) ↔ ∀ d ∈ D, d ∈ sel := by
    rw [List.countP_eq_length]; simp
  have hle : D.countP (fun x => x ∈ sel) ≤ D.length := List.countP_le_length _
  rw [Bool.and_eq_true, decide_eq_true_eq, decide_eq_true_eq, hlen]
  constructor
  · rintro ⟨h1, h2⟩
    refine ⟨hpos.mp h1, fun hforall => ?_⟩
    rw [hall.mpr hforall] at h2
    exact lt_irrefl _ h2
  · rintro ⟨hex, hnall⟩
    exact ⟨hpos.mpr hex, lt_of_le_of_ne hle (fun he => hnall (hall.mp he))⟩


/-! ## Claim theorems -/

/-- C1: for every record set, node `N` and selection states, after
`handleNodeSelect N true` every id in `getDescendants(N)` and `N` itself is
selected, and after `handleNodeSelect N false` — applied to an arbitrary
selection state, i.e. regardless of any other selections made before or in
between — they are all unselected (round-trip). -/
theorem claim1_select_deselect_round_trip (nodes : List HPONode)
    (s s' : List String) (N : HPONode) (d : String)
    (hd : d = N.id ∨ d ∈ getDescendants nodes N.id) :
    isNodeSelected (handleNodeSelect nodes s N true) d = true ∧
    isNodeSelected (handleNodeSelect nodes s' N false) d = false := by
  unfold handleNodeSelect isNodeSelected
  constructor
  · rw [if_pos rfl, decide_eq_true_eq, mem_jsSetAdd, mem_foldl_jsSetAdd]
    rcases hd with h | h
    · right; exact h
    · left; right; exact h
  · rw [if_neg (by simp), decide_eq_false_iff_not, mem_jsSetDelete, mem_foldl_jsSetDelete]
    rintro ⟨⟨_, hnd⟩, hne⟩
    rcases hd with h | h
    · exact hne h
    · exact hnd h

/-- Witness for C1 on the spec's example records: selecting `HP:1` marks
`HP:2` selected, and a later deselect of `HP:1` removes it whatever else was
selected in between. -/
theorem claim1_witness :
    isNodeSelected (handleNodeSelect exNodes [] exRootA true) "HP:2" = true ∧
    isNodeSelected (handleNodeSelect exNodes ["HP:2", "HP:9"] exRootA false) "HP:2" = false :=
  claim1_select_deselect_round_trip exNodes [] ["HP:2", "HP:9"] exRootA "HP:2"
    (Or.inr (by decide))

/-- C2 (amended): on a record set with distinct ids whose parent chains all
resolve to a root, the search-mode visible list exists, contains every node
that is a proper ancestor of some matching node, and contains nothing that is
neither a match nor such an ancestor. -/
theorem claim2_search_visible_amended (nodes : List HPONode)
    (expandedNodes : List String) (term : String)
    (hnd : (nodes.map (fun n => n.id)).Nodup)
    (hwf : wellFormedChains nodes = true)
    (hterm : term ≠ "") :
    ∃ l, visibleNodesDefault nodes expandedNodes term = some l ∧
      (∀ x ∈ nodes, (∃ mt ∈ nodes, matchesTerm (toLowerJS term) mt = true ∧
          Relation.TransGen (AncStep nodes) x mt) → x ∈ l) ∧
      (∀ x ∈ l, matchesTerm (toLowerJS term) x = true ∨
          ∃ mt ∈ nodes, matchesTerm (toLowerJS term) mt = true ∧
            Relation.TransGen (AncStep nodes) x mt) :=
  visibleNodes_search_spec nodes expandedNodes term hnd hwf hterm

/-- C2 counterexample: in the record set `dangNodes` the node `dangMid` is a
proper ancestor of the matching node `dangMatch`, yet the search-mode visible
list is empty, because `dangMid`'s own parent id `zz` is dangling and the
emission never reaches it. -/
theorem claim2_counterexample :
    visibleNodesDefault dangNodes [] "match" = some [] ∧
    dangMid ∈ dangNodes ∧ dangMatch ∈ dangNodes ∧
    matchesTerm (toLowerJS "match") dangMatch = true ∧
    Relation.TransGen (AncStep dangNodes) dangMid dangMatch :=
  ⟨by decide, by decide, by decide, by decide,
    Relation.TransGen.single ⟨by decide, rfl⟩⟩

/-- Witness for C2 on the spec's example records with the term `"childa"`. -/
theorem claim2_witness :
    ∃ l, visibleNodesDefault exNodes [] "childa" = some l ∧
      (∀ x ∈ exNodes, (∃ mt ∈ exNodes, matchesTerm (toLowerJS "childa") mt = true ∧
          Relation.TransGen (AncStep exNodes) x mt) → x ∈ l) ∧
      (∀ x ∈ l, matchesTerm (toLowerJS "childa") x = true ∨
          ∃ mt ∈ exNodes, matchesTerm (toLowerJS "childa") mt = true ∧
            Relation.TransGen (AncStep exNodes) x mt) :=
  claim2_search_visible_amended exNodes [] "childa" (by decide) (by decide) (by decide)

/-- C3 (amended): variant 1's `getDescendants` returns, for every record
set, exactly the ids reachable from `nodeId` through the children relation
and never `nodeId` itself; `part_003`'s `getDescendantIds` does the same for
every node of a record set with distinct ids and root-resolving parent
chains (its unguarded BFS does not terminate outside that class).  The
duplicate `getDescendants` at lines 841-862 additionally returns the node's
own id, see the counterexample. -/
theorem claim3_getDescendants_amended (nodes : List HPONode) (nodeId d : String)
    (n : HPONode) :
    (d ∈ getDescendants nodes nodeId ↔
      (Relation.TransGen (DescStep nodes) nodeId d ∧ d ≠ nodeId)) ∧
    ((nodes.map (fun m => m.id)).Nodup → wellFormedChains nodes = true →
      n ∈ nodes →
      ∃ res, getDescendantIds nodes n = some res ∧
        (∀ x, x ∈ res ↔ Relation.TransGen (DescStep nodes) n.id x) ∧
        n.id ∉ res) :=
  ⟨mem_getDescendants_iff nodes nodeId d,
   fun hnd hwf hn => getDescendantIds_spec hnd hwf hn⟩

/-- Witness for C3 on the example records: both the DFS and the BFS
characterizations applied concretely. -/
theorem claim3_witness :
    ("HP:2" ∈ getDescendants exNodes "HP:1" ↔
      (Relation.TransGen (DescStep exNodes) "HP:1" "HP:2" ∧ "HP:2" ≠ "HP:1")) ∧
    (∃ res, getDescendantIds exNodes exRootA = some res ∧
      (∀ x, x ∈ res ↔ Relation.TransGen (DescStep exNodes) exRootA.id x) ∧
      exRootA.id ∉ res) :=
  ⟨(claim3_getDescendants_amended exNodes "HP:1" "HP:2" exRootA).1,
   (claim3_getDescendants_amended exNodes "HP:1" "HP:2" exRootA).2
     (by decide) (by decide) (by decide)⟩

/-- C3 counterexample: the second variant's `getDescendants` (lines 841-862)
includes the requested id itself, which the claim forbids. -/
theorem claim3_counterexample :
    "HP:1" ∈ getDescendantsV2 exNodes "HP:1" ∧
    "HP:1" ∉ getDescendants exNodes "HP:1" := by decide

/-- C4 (amended): variant 1's `isNodePartiallySelected` (lines 322-326) is
true exactly when the node has at least one descendant, at least one of them
is selected and not all of them are — in particular false for leaves and
false when every descendant is selected, so partial and fully-selected are
mutually exclusive; variant 2's copy (lines 897-901) satisfies the same
counting characterization only over its self-including descendant list, and
therefore reports true for an unselected node all of whose proper
descendants are selected (see the counterexample). -/
theorem claim4_partial_selection_amended (nodes : List HPONode)
    (sel : List String) (i : String) :
    (isNodePartiallySelected nodes sel i = true ↔
      (getDescendants nodes i ≠ [] ∧ (∃ d ∈ getDescendants nodes i, d ∈ sel) ∧
       ¬ (∀ d ∈ getDescendants nodes i, d ∈ sel))) ∧
    (getDescendants nodes i = [] → isNodePartiallySelected nodes sel i = false) ∧
    ((∀ d ∈ getDescendants nodes i, d ∈ sel) →
      isNodePartiallySelected nodes sel i = false) ∧
    (isNodePartiallySelectedV2 nodes sel i = true ↔
      ((∃ d ∈ getDescendantsV2 nodes i, d ∈ sel) ∧
       ¬ (∀ d ∈ getDescendantsV2 nodes i, d ∈ sel))) := by
  refine ⟨?_, ?_, ?_, ?_⟩
  · simp only [isNodePartiallySelected]
    rw [partial_count_iff]
    constructor
    · rintro ⟨hex, hnall⟩
      refine ⟨?_, hex, hnall⟩
      obtain ⟨d, hd, _⟩ := hex
      exact List.ne_nil_of_mem hd
    · rintro ⟨_, hex, hnall⟩
      exact ⟨hex, hnall⟩
  · intro h
    simp only [isNodePartiallySelected]
    rw [h]
    simp
  · intro h
    simp only [isNodePartiallySelected]
    rw [Bool.eq_false_iff]
    intro hcon
    exact ((partial_count_iff _ _).mp hcon).2 h
  · simp only [isNodePartiallySelectedV2]
    exact partial_count_iff _ _

/-- C4 counterexample: in the example records every proper descendant of
`HP:1` is selected and `HP:1` itself is not, yet variant 2's
`isNodePartiallySelected` (built on the self-including `getDescendants` of
lines 841-862) reports the node as partially selected, where the claim
demands false. -/
theorem claim4_counterexample :
    isNodePartiallySelectedV2 exNodes ["HP:2", "HP:3"] "HP:1" = true ∧
    (∀ d ∈ getDescendants exNodes "HP:1", d ∈ (["HP:2", "HP:3"] : List String)) ∧
    getDescendants exNodes "HP:1" ≠ [] ∧
    "HP:1" ∉ (["HP:2", "HP:3"] : List String) := by decide

/-- Witness for C4 on the spec's scenario 2: with only `HP:2` selected,
`HP:1` is partially selected. -/
theorem claim4_witness :
    isNodePartiallySelected exNodes ["HP:2"] "HP:1" = true :=
  (claim4_partial_selection_amended exNodes ["HP:2"] "HP:1").1.mpr
    ⟨by decide, ⟨"HP:2", by decide, by decide⟩, by decide⟩

/-- C5: the ancestor walk shared by search matching and the auto-expand
effect never terminates on a two-node parent cycle — for every amount of
fuel the loop is still running — and consequently the search-mode
`visibleNodes` computation never produces a list on such a record set. -/
theorem claim5_ancestor_walk_divergence :
    (∀ fuel (acc : List String),
      ancWalkAux cycNodes fuel cycA acc = none ∧
      ancWalkAux cycNodes fuel cycB acc = none) ∧
    (∀ fuel, visibleNodes cycNodes [] "cyc" fuel = none) :=
  ⟨ancWalk_cycle_diverges, visibleNodes_cycle_diverges⟩

/-- C6 (amended): a node whose `parentId` names an absent id is grouped in
`childrenOf` under that dangling key, not under `null`, and is never emitted
by the plain-mode visible list (no error is raised — the computation still
returns); only `part_003`'s `rootNodes` filter treats such a node as a root. -/
theorem claim6_dangling_parent_amended (nodes : List HPONode)
    (expandedNodes : List String) (n : HPONode) (p : String)
    (hn : n ∈ nodes) (hp : n.parent_id = some p)
    (habsent : ∀ m ∈ nodes, m.id ≠ p) :
    n ∈ nodesByParent nodes (some p) ∧
    n ∉ nodesByParent nodes none ∧
    (∀ fuel l, visibleNodes nodes expandedNodes "" fuel = some l → n ∉ l) ∧
    n ∈ rootNodesV3 nodes :=
  orphan_behavior nodes expandedNodes n p hn hp habsent

/-- C6 counterexample: `orphanNode` has the dangling parent `HP:999`; it is
not in `childrenOf[null]` and the plain-mode visible list is empty rather
than listing it as a root. -/
theorem claim6_counterexample :
    nodesByParent orphanNodes none = [] ∧
    visibleNodesDefault orphanNodes [] "" = some [] ∧
    orphanNode ∈ orphanNodes ∧ orphanNode.parent_id = some "HP:999" ∧
    (∀ m ∈ orphanNodes, m.id ≠ "HP:999") := by decide

/-- Witness for C6 on the concrete orphan record set. -/
theorem claim6_witness :
    orphanNode ∈ nodesByParent orphanNodes (some "HP:999") ∧
    orphanNode ∉ nodesByParent orphanNodes none ∧
    (∀ fuel l, visibleNodes orphanNodes [] "" fuel = some l → orphanNode ∉ l) ∧
    orphanNode ∈ rootNodesV3 orphanNodes :=
  claim6_dangling_parent_amended orphanNodes [] orphanNode "HP:999"
    (by decide) (by decide) (by decide)

/-- C7: when every selected id resolves to a record, the serialized filter
value is the `","`-join of `"{id} - {label}"` in the iteration order of the
selection set, and the empty selection serializes to `""`. -/
theorem claim7_serialization (nodes : List HPONode) (sel : List String)
    (h : ∀ i ∈ sel, ∃ n ∈ nodes, n.id = i) :
    serializeSelection nodes sel =
      String.intercalate "," (sel.map (fun i => i ++ " - " ++ labelFor nodes i)) ∧
    (sel = [] → serializeSelection nodes sel = "") := by
  have hterms : (sel.map (fun i =>
      match nodes.find? (fun n => n.id = i) with
      | some n => some (n.id ++ " - " ++ n.name)
      | none => none)).filterMap id
      = sel.map (fun i => i ++ " - " ++ labelFor nodes i) := by
    induction sel with
    | nil => rfl
    | cons a tl ih =>
      obtain ⟨m, hm, hid⟩ := exists_find?_of_mem (h a (by simp))
      have htl := ih (fun i hi => h i (by simp [hi]))
      simp only [List.map_cons, hm, List.filterMap_cons, id]
      rw [htl]
      simp [labelFor, hm, hid]
  constructor
  · simp only [serializeSelection, hterms]
    cases sel with
    | nil => rfl
    | cons a tl =>
      simp only [List.map_cons, List.length_cons]
      rw [if_pos (by omega)]
  · rintro rfl; rfl

/-- Witness for C7 on the spec's scenario 1 selection. -/
theorem claim7_witness :
    serializeSelection exNodes ["HP:1", "HP:2", "HP:3"] =
      String.intercalate ","
        (["HP:1", "HP:2", "HP:3"].map (fun i => i ++ " - " ++ labelFor exNodes i)) :=
  (claim7_serialization exNodes ["HP:1", "HP:2", "HP:3"] (by decide)).1

/-- C8 (amended): the normalizers emit a record iff the raw `TERM_ID` and
`TERM_FULL_NAME` are non-empty before any trimming — `fetchData` additionally
drops rows whose raw `TERM_ID` starts with `]` — so quote/whitespace trimming
plays no part in the filter. -/
theorem claim8_normalizer_amended (rows : List CSVRow) (rec : HPONode) :
    (rec ∈ processedNodesV1 rows ↔ ∃ row ∈ rows,
        (row.TERM_ID ≠ "" ∧ row.TERM_FULL_NAME ≠ "" ∧
          ¬ (strStartsWith row.TERM_ID "]" = true)) ∧ rec = toNodeV1 row) ∧
    (rec ∈ parsedNodesV3 rows ↔ ∃ row ∈ rows,
        (row.TERM_ID ≠ "" ∧ row.TERM_FULL_NAME ≠ "") ∧ rec = toNodeV3 row) := by
  constructor
  · unfold processedNodesV1 rowKeptV1
    simp only [List.mem_map, List.mem_filter]
    constructor
    · rintro ⟨row, ⟨hmem, hcond⟩, rfl⟩
      simp only [Bool.and_eq_true, decide_eq_true_eq, Bool.not_eq_true'] at hcond
      exact ⟨row, hmem, ⟨hcond.1.1, hcond.1.2, by simp [hcond.2]⟩, rfl⟩
    · rintro ⟨row, hmem, ⟨h1, h2, h3⟩, rfl⟩
      refine ⟨row, ⟨hmem, ?_⟩, rfl⟩
      simp only [Bool.and_eq_true, decide_eq_true_eq, Bool.not_eq_true']
      exact ⟨⟨h1, h2⟩, by simpa using h3⟩
  · unfold parsedNodesV3 rowKeptV3
    simp only [List.mem_map, List.mem_filter]
    constructor
    · rintro ⟨row, ⟨hmem, hcond⟩, rfl⟩
      simp only [Bool.and_eq_true, decide_eq_true_eq] at hcond
      exact ⟨row, hmem, hcond, rfl⟩
    · rintro ⟨row, hmem, hcond, rfl⟩
      refine ⟨row, ⟨hmem, ?_⟩, rfl⟩
      simp only [Bool.and_eq_true, decide_eq_true_eq]
      exact hcond

/-- C8 counterexample: a row whose `TERM_ID` trims to the empty string is
emitted (with an empty id) by both normalizers, and a row whose `TERM_ID`
is non-empty after trimming is dropped by `fetchData` because of the `]`
exclusion — both contradict the trimming-based emit-iff condition. -/
theorem claim8_counterexample :
    stripQuotes quotesRow.TERM_ID = "" ∧ stripQuotes quotesRow.TERM_FULL_NAME ≠ "" ∧
    processedNodesV1 [quotesRow] = [toNodeV1 quotesRow] ∧
    (toNodeV1 quotesRow).id = "" ∧
    parsedNodesV3 [quotesRow] = [toNodeV3 quotesRow] ∧
    stripQuotes bracketRow.TERM_ID ≠ "" ∧ stripQuotes bracketRow.TERM_FULL_NAME ≠ "" ∧
    processedNodesV1 [bracketRow] = [] := by decide

/-- C9 (amended): the emitted record's `level` is the JS `parseInt` of the
raw `LEVEL` value; `fetchData` and `parseCSVChunk` keep `NaN` (here `none`)
on parse failure, while `loadHPOData`'s `parseInt(row.LEVEL) || 0` defaults
to `0`; none of them can raise. -/
theorem claim9_level_parse_amended (row : CSVRow) (s : String) :
    (toNodeV1 row).level = parseIntJS row.LEVEL ∧
    (toNodeV3 row).level = parseIntJS row.LEVEL ∧
    levelV2 s = (parseIntJS s).getD 0 := by
  refine ⟨rfl, rfl, ?_⟩
  unfold levelV2 jsOrZero
  cases parseIntJS s with
  | none => rfl
  | some k =>
    simp only [Option.getD_some]
    split
    · omega
    · rfl

/-- C9 counterexample: `LEVEL = "abc"` fails to parse, and the record emitted
by `fetchData` carries `NaN` (`none`), not `0`. -/
theorem claim9_counterexample :
    parseIntJS badLevelRow.LEVEL = none ∧
    processedNodesV1 [badLevelRow] = [toNodeV1 badLevelRow] ∧
    (toNodeV1 badLevelRow).level = none ∧
    (toNodeV1 badLevelRow).level ≠ some 0 := by decide

/-- C10: whatever the record set, expansion set, search term and fuel, a
produced visible-node list never repeats a node id and only contains records
of the loaded set (this covers both the plain and the search mode). -/
theorem claim10_visible_list_invariants (nodes : List HPONode)
    (expandedNodes : List String) (term : String) (fuel : Nat) (l : List HPONode)
    (h : visibleNodes nodes expandedNodes term fuel = some l) :
    (l.map (fun v => v.id)).Nodup ∧ ∀ x ∈ l, x ∈ nodes :=
  visibleNodes_ids_nodup_subset nodes expandedNodes term fuel l h

/-- Witness for C10 on the example records in plain mode. -/
theorem claim10_witness :
    (([exRootA].map (fun v => v.id)).Nodup ∧ ∀ x ∈ [exRootA], x ∈ exNodes) :=
  claim10_visible_list_invariants exNodes [] "" 4 [exRootA] (by decide)

end HPO
